import Mathlib

/-!
Verification of the state-aware optimistic planner
(`rl_agents/agents/tree_search/state_aware.py`).

The Python classes `StateAwarePlanner` and `StateAwareNode` are shallowly
embedded as pure Lean functions over an explicit planner state.  Tree nodes
live in an arena (an association list from numeric node ids to node records),
so Python object identity becomes id equality.  Python `dict`s become
association lists, Python floats become `ℚ`, and any operation that can raise
an exception in Python (`KeyError` from plain dict indexing, `ValueError` from
`max`/`list.remove` on missing data) returns `none`.  The recursive method
`backup_to_root` is embedded with an explicit fuel parameter: the result
`none` means the fuel ran out, `some (Except.error ())` means the Python code
would have raised an exception, and `some (Except.ok (count, registry))`
means the Python call would have returned `count` with the mutated registry.
-/

namespace StateAware

/-- Node record: the fields of `StateAwareNode` (and its `DeterministicNode`
base) that the planner logic reads: parent link, children (in insertion
order), the transition reward, the accumulated value `self.value`, depth,
terminal flag, and the stored observation. -/
structure NodeData where
  parent : Option Nat
  childrenIds : List Nat
  reward : ℚ
  value : ℚ
  depth : Nat
  done : Bool
  observation : Option String
  deriving Repr, DecidableEq

/-- Configuration keys read by the state-aware planner. -/
structure Config where
  gamma : ℚ
  stopping_accuracy : ℚ
  backup_aggregated_nodes : Bool
  prune_suboptimal_leaves : Bool
  deriving Repr, DecidableEq

/-- Registry mapping `str(observation)` to the current value upper bound
(`StateAwarePlanner.state_values`). -/
abbrev Reg := List (String × ℚ)

/-- Mapping `str(observation)` to the nodes registered under that state
(`StateAwarePlanner.state_nodes`). -/
abbrev StateNodes := List (String × List Nat)

/-- Arena of tree nodes, keyed by node id. -/
abbrev NodeMap := List (Nat × NodeData)

/-- Lookup in an association list with `Nat` keys. -/
def lookupN {α : Type} : List (Nat × α) → Nat → Option α
  | [], _ => none
  | (k, v) :: rest, key => if key = k then some v else lookupN rest key

/-- Overwrite (or insert at the end) the entry for a `Nat` key. -/
def setN {α : Type} : List (Nat × α) → Nat → α → List (Nat × α)
  | [], key, v => [(key, v)]
  | (k, w) :: rest, key, v =>
    if key = k then (k, v) :: rest else (k, w) :: setN rest key v

/-- Lookup in an association list with `String` keys. -/
def lookupS {α : Type} : List (String × α) → String → Option α
  | [], _ => none
  | (k, v) :: rest, key => if key = k then some v else lookupS rest key

/-- Overwrite (or insert at the end) the entry for a `String` key. -/
def setS {α : Type} : List (String × α) → String → α → List (String × α)
  | [], key, v => [(key, v)]
  | (k, w) :: rest, key, v =>
    if key = k then (k, v) :: rest else (k, w) :: setS rest key v

/-- Python's `str` applied to an optional observation: the registry keys are
`str(observation)`, and `str(None)` is the string `None`. -/
def strKey : Option String → String
  | some s => s
  | none => "None"

/-- The maximal value constant `1/(1-gamma)` used as default bound. -/
def maxValue (cfg : Config) : ℚ := 1 / (1 - cfg.gamma)

/-- Embedding of `StateAwarePlanner.update_value(observation, value)`:
if `str(observation)` is not in `state_values` or `value` is smaller than the
stored bound, store `value` and return `True` together with
`state_values.get(str(observation), 1/(1-gamma)) - value`; otherwise return
`(False, 0)` and leave the registry unchanged. -/
def update_value (cfg : Config) (reg : Reg) (observation : Option String)
    (value : ℚ) : Bool × ℚ × Reg :=
  match lookupS reg (strKey observation) with
  | none => (true, maxValue cfg - value, setS reg (strKey observation) value)
  | some current =>
    if value < current then
      (true, current - value, setS reg (strKey observation) value)
    else
      (false, 0, reg)

/-- Embedding of `StateAwareNode.get_value_upper_bound`:
`self.value + gamma ** self.depth * state_values[str(self.observation)]`.
The registry access is plain dict indexing, so an absent key is a
`KeyError`, modelled as `none`. -/
def get_value_upper_bound (cfg : Config) (nodes : NodeMap) (reg : Reg)
    (nid : Nat) : Option ℚ :=
  match lookupN nodes nid with
  | none => none
  | some nd =>
    match lookupS reg (strKey nd.observation) with
    | none => none
    | some b => some (nd.value + cfg.gamma ^ nd.depth * b)

/-- One-step Bellman candidate computed inside `backup_to_root`:
`best_child.reward + gamma * state_values[str(best_child.observation)]`.
Again a plain dict index, failing (`none`) on an absent key. -/
def backupCandidate (cfg : Config) (nodes : NodeMap) (reg : Reg)
    (bc : Nat) : Option ℚ :=
  match lookupN nodes bc with
  | none => none
  | some bcd =>
    match lookupS reg (strKey bcd.observation) with
    | none => none
    | some bv => some (bcd.reward + cfg.gamma * bv)

/-- Upper bounds of a list of nodes, `none` as soon as one lookup fails
(Python's `max(…, key=…)` evaluates the key on every element). -/
def ucbKeys (cfg : Config) (nodes : NodeMap) (reg : Reg) :
    List Nat → Option (List (Nat × ℚ))
  | [] => some []
  | m :: rest =>
    match get_value_upper_bound cfg nodes reg m with
    | none => none
    | some q =>
      match ucbKeys cfg nodes reg rest with
      | none => none
      | some ks => some ((m, q) :: ks)

/-- First element attaining the maximal key, as Python's `max` (which only
replaces the current best on a strictly greater key). -/
def firstArgmax : Nat × ℚ → List (Nat × ℚ) → Nat
  | (bm, _), [] => bm
  | (bm, bv), (m, v) :: rest =>
    if bv < v then firstArgmax (m, v) rest else firstArgmax (bm, bv) rest

/-- Embedding of `max(nodes, key=lambda n: n.get_value_upper_bound())`:
`none` when the collection is empty (`ValueError`) or when some key raises. -/
def maxByUcb (cfg : Config) (nodes : NodeMap) (reg : Reg)
    (ids : List Nat) : Option Nat :=
  match ucbKeys cfg nodes reg ids with
  | none => none
  | some [] => none
  | some (k :: ks) => some (firstArgmax k ks)

/-- Registration step of `StateAwareNode.update`: append the node to
`state_nodes[str(observation)]`, creating the entry when absent. -/
def register_node (sn : StateNodes) (key : String) (nid : Nat) : StateNodes :=
  setS sn key (((lookupS sn key).getD []) ++ [nid])

/-- Default continuation estimate of `StateAwareNode.update`:
`1/(1 - gamma) if not self.done else 0`. -/
def default_future_value (cfg : Config) (done : Bool) : ℚ :=
  if done then 0 else maxValue cfg

/-- Does the node have no children (`not node.children`)?  A node id missing
from the arena is treated as not childless (it can never be a prune
candidate; in Python every registered node exists). -/
def isChildless (nodes : NodeMap) (m : Nat) : Bool :=
  match lookupN nodes m with
  | some md => md.childrenIds.isEmpty
  | none => false

/-- Embedding of Python's `list.remove`: drop the first occurrence, `none`
(`ValueError`) when the element is absent. -/
def removeFirst : List Nat → Nat → Option (List Nat)
  | [], _ => none
  | x :: rest, m =>
    if x = m then some rest else
      match removeFirst rest m with
      | none => none
      | some l => some (x :: l)

/-- The list comprehension
`[leaves.remove(node) for node in state_leaves if node is not best]`:
remove every candidate other than `best` from the frontier list. -/
def pruneLeaves (leaves : List Nat) : List Nat → Nat → Option (List Nat)
  | [], _ => some leaves
  | c :: rest, best =>
    if c = best then pruneLeaves leaves rest best
    else
      match removeFirst leaves c with
      | none => none
      | some l1 => pruneLeaves l1 rest best

/-- Prune candidates computed inside `StateAwareNode.update`: the nodes
registered under the new observation key (after the node itself has been
appended) that are both childless and members of `planner.leaves`.  The
candidate test only reads children and frontier membership, which the
field update of `update` does not touch, so it is stated over the original
arena. -/
def pruneCandsOf (p_state_nodes : StateNodes) (nodes : NodeMap)
    (leaves : List Nat) (nid : Nat) (obs : Option String) : List Nat :=
  (((lookupS (register_node p_state_nodes (strKey obs) nid) (strKey obs)).getD []).filter
    (fun m => isChildless nodes m && leaves.contains m))

/-- Planner state: configuration, root id, node arena, both registries and
the frontier list (`planner.leaves`). -/
structure Planner where
  cfg : Config
  root : Nat
  nodes : NodeMap
  state_nodes : StateNodes
  state_values : Reg
  leaves : List Nat
  deriving Repr, DecidableEq

/-- Embedding of `StateAwareNode.update(reward, done, observation)`.
The `super().update(reward, done)` call lives in a file outside this
repository snapshot; per the spec it stores `reward` and `done` on the node
and the accumulated value is treated as already correct on entry, so only
those two fields are written here (Modelled from the spec for that base
call).  Everything else follows the source: store the observation, register
the node under `str(observation)`, tighten with the default continuation
estimate, and, when `prune_suboptimal_leaves` is set, keep only the best
childless frontier node registered under this observation, where a failing
`max` (empty candidate list or a `KeyError` inside the key function) and a
failing `list.remove` yield `none`. -/
def update (p : Planner) (nid : Nat) (reward : ℚ) (done : Bool)
    (obs : Option String) : Option Planner :=
  match lookupN p.nodes nid with
  | none => none
  | some nd =>
    let nd1 : NodeData :=
      { nd with reward := reward, done := done, observation := obs }
    let nodes1 := setN p.nodes nid nd1
    let key := strKey obs
    let sn1 := register_node p.state_nodes key nid
    let reg1 := (update_value p.cfg p.state_values obs
      (default_future_value p.cfg done)).2.2
    if p.cfg.prune_suboptimal_leaves then
      let cands := pruneCandsOf p.state_nodes nodes1 p.leaves nid obs
      match maxByUcb p.cfg nodes1 reg1 cands with
      | none => none
      | some best =>
        match pruneLeaves p.leaves cands best with
        | none => none
        | some leaves1 =>
          some { p with nodes := nodes1, state_nodes := sn1,
                        state_values := reg1, leaves := leaves1 }
    else
      some { p with nodes := nodes1, state_nodes := sn1, state_values := reg1 }

/-- Result type of a fueled `backup_to_root` call: `none` when the fuel ran
out, `Except.error ()` when the Python code would raise, and
`Except.ok (count, registry)` for a normal return. -/
abbrev BackupResult := Option (Except Unit (Nat × Reg))

/-- The `for node in state_nodes[str(self.observation)]` loop of
`backup_to_root`: for each registered node other than the caller that has a
parent, recurse into the parent (through `g`, the fueled recursion at the
next smaller fuel) and add its count, threading the registry left to right
and propagating exhaustion and errors. -/
def backupAgg (g : Reg → Nat → BackupResult) (nodes : NodeMap)
    (selfId : Nat) : List Nat → BackupResult → BackupResult
  | [], acc => acc
  | m :: rest, acc =>
    backupAgg g nodes selfId rest
      (match acc with
       | some (Except.ok (c, r)) =>
         if m = selfId then some (Except.ok (c, r))
         else
           match lookupN nodes m with
           | none => some (Except.error ())
           | some md =>
             match md.parent with
             | none => some (Except.ok (c, r))
             | some q =>
               match g r q with
               | some (Except.ok (c2, r2)) => some (Except.ok (c + c2, r2))
               | e => e
       | e => e)

/-- Fueled embedding of `StateAwareNode.backup_to_root`.  A call on a
childless node returns `0` and leaves the registry alone.  Otherwise the
best child is selected by upper bound, the one-step Bellman candidate is
tightened into this node's state, and when the tighten succeeded with an
improvement above `stopping_accuracy` the call recurses into the parent and
then (when `backup_aggregated_nodes` is set) into the parents of the other
nodes registered under this node's state; the returned count is `1` plus
the recursive counts. -/
def backupFuel (cfg : Config) (nodes : NodeMap) (sn : StateNodes) :
    Nat → Reg → Nat → BackupResult
  | 0, _, _ => none
  | fuel + 1, reg, nid =>
    match lookupN nodes nid with
    | none => some (Except.error ())
    | some nd =>
      if nd.childrenIds = [] then some (Except.ok (0, reg))
      else
        match maxByUcb cfg nodes reg nd.childrenIds with
        | none => some (Except.error ())
        | some bc =>
          match backupCandidate cfg nodes reg bc with
          | none => some (Except.error ())
          | some bk =>
            match update_value cfg reg nd.observation bk with
            | (updated, delta, reg1) =>
              if updated = true ∧ cfg.stopping_accuracy < delta then
                let afterParent : BackupResult :=
                  match nd.parent with
                  | some par =>
                    match backupFuel cfg nodes sn fuel reg1 par with
                    | some (Except.ok (c, r)) => some (Except.ok (1 + c, r))
                    | e => e
                  | none => some (Except.ok (1, reg1))
                if cfg.backup_aggregated_nodes then
                  match lookupS sn (strKey nd.observation) with
                  | none => some (Except.error ())
                  | some others =>
                    backupAgg (fun r q => backupFuel cfg nodes sn fuel r q)
                      nodes nid others afterParent
                else afterParent
              else some (Except.ok (1, reg1))

/-- Wrapper invoking `backup_to_root` on a node of a planner state. -/
def backup_to_root (p : Planner) (nid : Nat) (fuel : Nat) : BackupResult :=
  backupFuel p.cfg p.nodes p.state_nodes fuel p.state_values nid

/-- One step of the `backup_to_root` recursion with the recursive call
abstracted as `g` — used to unfold `backupFuel` one level at a time in
proofs. -/
def backupBody (cfg : Config) (nodes : NodeMap) (sn : StateNodes)
    (g : Reg → Nat → BackupResult) (reg : Reg) (nid : Nat) : BackupResult :=
  match lookupN nodes nid with
  | none => some (Except.error ())
  | some nd =>
    if nd.childrenIds = [] then some (Except.ok (0, reg))
    else
      match maxByUcb cfg nodes reg nd.childrenIds with
      | none => some (Except.error ())
      | some bc =>
        match backupCandidate cfg nodes reg bc with
        | none => some (Except.error ())
        | some bk =>
          match update_value cfg reg nd.observation bk with
          | (updated, delta, reg1) =>
            if updated = true ∧ cfg.stopping_accuracy < delta then
              let afterParent : BackupResult :=
                match nd.parent with
                | some par =>
                  match g reg1 par with
                  | some (Except.ok (c, r)) => some (Except.ok (1 + c, r))
                  | e => e
                | none => some (Except.ok (1, reg1))
              if cfg.backup_aggregated_nodes then
                match lookupS sn (strKey nd.observation) with
                | none => some (Except.error ())
                | some others =>
                  backupAgg (fun r q => g r q) nodes nid others afterParent
              else afterParent
            else some (Except.ok (1, reg1))

/-- Registry-seeding statements at the top of `StateAwarePlanner.plan`:
store the observation on the root node, overwrite
`state_nodes[str(observation)]` with `[root]`, and set
`state_values[str(observation)]` to `1/(1-gamma)`. -/
def plan_init (p : Planner) (obs : Option String) : Planner :=
  { p with
    nodes :=
      match lookupN p.nodes p.root with
      | some rd => setN p.nodes p.root { rd with observation := obs }
      | none => p.nodes,
    state_nodes := setS p.state_nodes (strKey obs) [p.root],
    state_values := setS p.state_values (strKey obs) (maxValue p.cfg) }

/-- First statement of `StateAwarePlanner.run`: select the frontier node of
maximal upper bound; `max` on an empty frontier raises (`none`). -/
def run_select (p : Planner) : Option Nat :=
  maxByUcb p.cfg p.nodes p.state_values p.leaves

/-- Registered nodes under a key that are both childless and members of the
frontier list — the nodes the pruning policy reasons about. -/
def frontierAt (p : Planner) (k : String) : List Nat :=
  ((lookupS p.state_nodes k).getD []).filter
    (fun m => isChildless p.nodes m && p.leaves.contains m)

/-- Pruning invariant: for every state key, at most one registered node is
both childless and a frontier member. -/
def AtMostOneFrontier (p : Planner) : Prop :=
  ∀ k m₁ m₂, m₁ ∈ frontierAt p k → m₂ ∈ frontierAt p k → m₁ = m₂

/-- Planner invariant carried through sequences of `update` calls: the
frontier list has no duplicate node references and the pruning invariant
holds. -/
def PlannerInv (p : Planner) : Prop :=
  p.leaves.Nodup ∧ AtMostOneFrontier p

/-- The registry mutating operations of the planner named by the spec:
a raw `update_value` call, an `update` (on_transition) call, a
`backup_to_root` call (with explicit fuel), and the registry seeding done
by `plan`. -/
inductive PlannerOp where
  | upd_val (obs : Option String) (v : ℚ)
  | transition (nid : Nat) (reward : ℚ) (done : Bool) (obs : Option String)
  | backup (nid : Nat) (fuel : Nat)
  | plan_seed (obs : Option String)

/-- Whether an operation is the registry seeding of `plan`. -/
def isPlanSeed : PlannerOp → Bool
  | .plan_seed _ => true
  | _ => false

/-- Whether an operation is an `update` (on_transition) call. -/
def isTransition : PlannerOp → Bool
  | .transition _ _ _ _ => true
  | _ => false

/-- Apply one planner operation; `none` when the Python call would raise. -/
def applyOp (p : Planner) : PlannerOp → Option Planner
  | .upd_val obs v =>
    some { p with state_values := (update_value p.cfg p.state_values obs v).2.2 }
  | .transition nid r d obs => update p nid r d obs
  | .backup nid fuel =>
    match backupFuel p.cfg p.nodes p.state_nodes fuel p.state_values nid with
    | some (Except.ok (_, reg1)) => some { p with state_values := reg1 }
    | _ => none
  | .plan_seed obs => some (plan_init p obs)

/-- Apply a sequence of planner operations left to right. -/
def applyOps : List PlannerOp → Planner → Option Planner
  | [], p => some p
  | op :: rest, p =>
    match applyOp p op with
    | none => none
    | some p1 => applyOps rest p1

/-- Per-key evolution of the bound registry: every key present before is
still present afterwards with a value that did not increase. -/
def RegStep (reg reg' : Reg) : Prop :=
  ∀ k v, lookupS reg k = some v → ∃ v', lookupS reg' k = some v' ∧ v' ≤ v

/-- All stored bounds lie between `0` and `1/(1-gamma)`. -/
def RegInRange (cfg : Config) (reg : Reg) : Prop :=
  ∀ k v, lookupS reg k = some v → 0 ≤ v ∧ v ≤ maxValue cfg

/-- All rewards stored in the arena are normalized to `[0, 1]`. -/
def RewardsInRange (nodes : NodeMap) : Prop :=
  ∀ pr ∈ nodes, 0 ≤ (pr : Nat × NodeData).2.reward ∧ (pr : Nat × NodeData).2.reward ≤ 1

/-- The distinct registry keys of the nodes in an arena. -/
def nodeKeys (nodes : NodeMap) : List String :=
  (nodes.map (fun pr => strKey pr.2.observation)).dedup

/-- Termination measure for `backup_to_root`: the sum, over the state keys
of the tree, of the registered bound (defaulting to `1/(1-gamma)`); every
successful tighten of a tree state decreases it by the returned delta. -/
def muReg (cfg : Config) (keys : List String) (reg : Reg) : ℚ :=
  (keys.map (fun k => (lookupS reg k).getD (maxValue cfg))).sum

/-- Formalization of the claim that `backup_to_root` always terminates: for
every finite tree, registry and start node, and every configuration with
`0 ≤ gamma < 1` and `stopping_accuracy ≥ 0`, some fuel suffices for the
fueled recursion to return (normally or with an exception). -/
def BackupAlwaysTerminates : Prop :=
  ∀ (cfg : Config) (nodes : NodeMap) (sn : StateNodes) (reg : Reg) (nid : Nat),
    0 ≤ cfg.gamma → cfg.gamma < 1 → 0 ≤ cfg.stopping_accuracy →
    ∃ (fuel : Nat) (res : Except Unit (Nat × Reg)),
      backupFuel cfg nodes sn fuel reg nid = some res

/-- Formalization of the claim that over a planner's lifetime every stored
bound, once present, only ever moves to smaller values, across every
operation (`update_value`, `update`, `backup_to_root` and `plan`). -/
def ValuesMonotoneOverLifetime : Prop :=
  ∀ (p0 p1 p2 : Planner) (ops1 ops2 : List PlannerOp) (k : String) (v1 v2 : ℚ),
    applyOps ops1 p0 = some p1 → applyOps ops2 p1 = some p2 →
    lookupS p1.state_values k = some v1 → lookupS p2.state_values k = some v2 →
    v2 ≤ v1

/-! Concrete instances used by counterexamples and witnesses. -/

/-- Default-like configuration with `gamma = 1/2`. -/
def cfgHalf : Config := ⟨1/2, 0, true, true⟩

/-- Same configuration with aggregated backup disabled. -/
def cfgNoAgg : Config := ⟨1/2, 0, false, true⟩

/-- Same configuration with pruning disabled. -/
def cfgNoPrune : Config := ⟨1/2, 0, true, false⟩

/-- Tree whose aggregated states form a cycle: the root `X` has children
reaching `S` and `T`, a node at `S` has a child reaching `T`, and a node at
`T` has a child reaching `S`. -/
def nodesCyc : NodeMap :=
  [ (0, ⟨none, [1, 2], 0, 0, 0, false, some "X"⟩),
    (1, ⟨some 0, [3], 0, 0, 1, false, some "S"⟩),
    (2, ⟨some 0, [4], 0, 0, 1, false, some "T"⟩),
    (3, ⟨some 1, [], 0, 0, 2, false, some "T"⟩),
    (4, ⟨some 2, [], 0, 0, 2, false, some "S"⟩) ]

/-- Registration index of the cyclic tree. -/
def snCyc : StateNodes := [("X", [0]), ("S", [1, 4]), ("T", [2, 3])]

/-- Initial registry of the cyclic tree: every state at the default bound
`1/(1-gamma) = 2`. -/
def regCyc : Reg := [("X", 2), ("S", 2), ("T", 2)]

/-- Single childless node at state `X`. -/
def nodesOne : NodeMap := [(0, ⟨none, [], 0, 0, 0, false, some "X"⟩)]

/-- Two-node chain: the root at `A` with one child reaching `B`. -/
def nodesChain : NodeMap :=
  [ (0, ⟨none, [1], 0, 0, 0, false, some "A"⟩),
    (1, ⟨some 0, [], 1, 1, 1, false, some "B"⟩) ]

/-- Registry for the chain, both states at the default bound. -/
def regChain : Reg := [("A", 2), ("B", 2)]

/-- Three-node chain `A → B → C` with reward 1 on the last transition and
the bound of `C` already tightened to 0. -/
def nodesChain3 : NodeMap :=
  [ (0, ⟨none, [1], 0, 0, 0, false, some "A"⟩),
    (1, ⟨some 0, [2], 0, 0, 1, false, some "B"⟩),
    (2, ⟨some 1, [], 1, 1, 2, false, some "C"⟩) ]

/-- Registration index of the three-node chain. -/
def snChain3 : StateNodes := [("A", [0]), ("B", [1]), ("C", [2])]

/-- Registry of the three-node chain. -/
def regChain3 : Reg := [("A", 2), ("B", 2), ("C", 0)]

/-- Planner with one expanded root (state `A`) and a fresh childless child
(node 1) on the frontier, to be updated. -/
def pW4 : Planner :=
  ⟨cfgHalf, 0,
    [ (0, ⟨none, [1], 0, 0, 0, false, some "A"⟩),
      (1, ⟨some 0, [], 0, 0, 1, false, none⟩) ],
    [("A", [0])], [("A", 2)], [1]⟩

/-- Planner with pruning disabled holding a registered bound of 2 for state
`B` and a fresh childless node 1. -/
def pTerm : Planner :=
  ⟨cfgNoPrune, 0, [(1, ⟨none, [], 0, 0, 1, false, none⟩)],
    [], [("B", 2)], [1]⟩

/-- Minimal planner used for the lifetime-monotonicity trace: a root node
and empty registries. -/
def pSeed : Planner :=
  ⟨cfgHalf, 0, [(0, ⟨none, [], 0, 0, 0, false, none⟩)], [], [], [0]⟩

/-- Planner with a fresh node 5 that is not yet a member of the frontier
list, and nothing registered. -/
def pFresh : Planner :=
  ⟨cfgHalf, 0, [(5, ⟨none, [], 0, 0, 1, false, none⟩)], [], [], []⟩

/-- Planner with an empty frontier list. -/
def pEmptyFrontier : Planner := ⟨cfgHalf, 0, [], [], [], []⟩

/-- Configuration with a positive stopping accuracy. -/
def cfgSa : Config := ⟨1/2, 1, true, true⟩

/-- Result of updating node 1 of `pTerm` with a terminal transition into the
already-seen state `B`: its bound is tightened from 2 to 0. -/
def pTermRes : Planner :=
  ⟨cfgNoPrune, 0, [(1, ⟨none, [], 0, 0, 1, true, some "B"⟩)],
    [("B", [1])], [("B", 0)], [1]⟩

/-- Result of updating node 1 of `pTerm` with a non-terminal transition into
the already-seen state `B`: its bound is unchanged. -/
def pTermRes2 : Planner :=
  ⟨cfgNoPrune, 0, [(1, ⟨none, [], 0, 0, 1, false, some "B"⟩)],
    [("B", [1])], [("B", 2)], [1]⟩

/-- Result of updating node 1 of `pW4` with reward 1 into the fresh state
`B`. -/
def pW4res : Planner :=
  ⟨cfgHalf, 0,
    [ (0, ⟨none, [1], 0, 0, 0, false, some "A"⟩),
      (1, ⟨some 0, [], 1, 0, 1, false, some "B"⟩) ],
    [("A", [0]), ("B", [1])], [("A", 2), ("B", 2)], [1]⟩

/-- Registry of the three-node chain after backing up node 1 and then the
root. -/
def regChain3res : Reg := [("A", 1/2), ("B", 1), ("C", 0)]

/-- Tree with two nodes aggregated at state `B`: the root (state `A`) has
children 1 and 2, both reaching `B`; node 1 has a child reaching `C`. -/
def nodesAgg : NodeMap :=
  [ (0, ⟨none, [1, 2], 0, 0, 0, false, some "A"⟩),
    (1, ⟨some 0, [3], 0, 0, 1, false, some "B"⟩),
    (2, ⟨some 0, [], 0, 0, 1, false, some "B"⟩),
    (3, ⟨some 1, [], 1, 1, 2, false, some "C"⟩) ]

/-- Registration index of the aggregated tree. -/
def snAgg : StateNodes := [("A", [0]), ("B", [1, 2]), ("C", [3])]

/-- Registry of the aggregated tree before the backup. -/
def regAgg : Reg := [("A", 2), ("B", 2), ("C", 0)]

/-- Registry of the aggregated tree after backing up node 1, the root, and
the root again through the aggregated sibling. -/
def regAggRes : Reg := [("A", 1/2), ("B", 1), ("C", 0)]

/-- State of `pSeed` after seeding the root at `A` and tightening `A` to 1. -/
def pSeed1 : Planner :=
  ⟨cfgHalf, 0, [(0, ⟨none, [], 0, 0, 0, false, some "A"⟩)],
    [("A", [0])], [("A", 1)], [0]⟩

/-- State of `pSeed1` after `plan` seeds the root at `A` again: the bound of
`A` is reset to the maximal value `2`. -/
def pSeed2 : Planner :=
  ⟨cfgHalf, 0, [(0, ⟨none, [], 0, 0, 0, false, some "A"⟩)],
    [("A", [0])], [("A", 2)], [0]⟩

/-! Association list lemmas. -/

theorem lookupS_setS_self {α : Type} (l : List (String × α)) (k : String) (v : α) :
    lookupS (setS l k v) k = some v := by
  induction l with
  | nil => simp [setS, lookupS]
  | cons hd t ih =>
    obtain ⟨k', w⟩ := hd
    by_cases hk : k = k'
    · simp [setS, hk, lookupS]
    · simp [setS, hk, lookupS, ih]

theorem lookupS_setS_ne {α : Type} (l : List (String × α)) (k k' : String) (v : α)
    (h : k' ≠ k) : lookupS (setS l k v) k' = lookupS l k' := by
  induction l with
  | nil => simp [setS, lookupS, h]
  | cons hd t ih =>
    obtain ⟨k0, w⟩ := hd
    by_cases hk : k = k0
    · subst hk
      simp [setS, lookupS, h]
    · simp [setS, hk, lookupS, ih]

theorem lookupN_setN_self {α : Type} (l : List (Nat × α)) (k : Nat) (v : α) :
    lookupN (setN l k v) k = some v := by
  induction l with
  | nil => simp [setN, lookupN]
  | cons hd t ih =>
    obtain ⟨k', w⟩ := hd
    by_cases hk : k = k'
    · simp [setN, hk, lookupN]
    · simp [setN, hk, lookupN, ih]

theorem lookupN_setN_ne {α : Type} (l : List (Nat × α)) (k k' : Nat) (v : α)
    (h : k' ≠ k) : lookupN (setN l k v) k' = lookupN l k' := by
  induction l with
  | nil => simp [setN, lookupN, h]
  | cons hd t ih =>
    obtain ⟨k0, w⟩ := hd
    by_cases hk : k = k0
    · subst hk
      simp [setN, lookupN, h]
    · simp [setN, hk, lookupN, ih]

/-! Lemmas about `update_value`. -/

theorem update_value_regStep (cfg : Config) (reg : Reg) (obs : Option String)
    (v : ℚ) : RegStep reg (update_value cfg reg obs v).2.2 := by
  intro k w hk
  unfold update_value
  cases h : lookupS reg (strKey obs) with
  | none =>
    by_cases hkey : k = strKey obs
    · rw [hkey, h] at hk
      cases hk
    · exact ⟨w, by simpa [lookupS_setS_ne _ _ _ _ hkey] using hk, le_refl w⟩
  | some cur =>
    by_cases hlt : v < cur
    · by_cases hkey : k = strKey obs
      · subst hkey
        rw [h] at hk
        injection hk with hk
        exact ⟨v, by simp [hlt, lookupS_setS_self], hk ▸ le_of_lt hlt⟩
      · exact ⟨w, by simpa [hlt, lookupS_setS_ne _ _ _ _ hkey] using hk, le_refl w⟩
    · exact ⟨w, by simpa [hlt] using hk, le_refl w⟩

theorem regStep_refl (reg : Reg) : RegStep reg reg :=
  fun _ v h => ⟨v, h, le_refl v⟩

theorem regStep_trans {r1 r2 r3 : Reg} (h1 : RegStep r1 r2) (h2 : RegStep r2 r3) :
    RegStep r1 r3 := by
  intro k v h
  obtain ⟨v', h', hle'⟩ := h1 k v h
  obtain ⟨v'', h'', hle''⟩ := h2 k v' h'
  exact ⟨v'', h'', le_trans hle'' hle'⟩

/-- C1, amended.  `update_value` behaves as the claim states whenever the
candidate is strictly below the (defaulted) current bound, and whenever the
state is present with a bound at most the candidate; but for a state absent
from the registry the candidate is always stored, with delta
`1/(1-gamma) - v`, even when `v ≥ 1/(1-gamma)`. -/
theorem c1_update_value (cfg : Config) (reg : Reg) (obs : Option String) (v : ℚ) :
    (lookupS reg (strKey obs) = none →
      update_value cfg reg obs v = (true, maxValue cfg - v, setS reg (strKey obs) v) ∧
      lookupS (update_value cfg reg obs v).2.2 (strKey obs) = some v) ∧
    (∀ cur, lookupS reg (strKey obs) = some cur → v < cur →
      update_value cfg reg obs v = (true, cur - v, setS reg (strKey obs) v) ∧
      lookupS (update_value cfg reg obs v).2.2 (strKey obs) = some v) ∧
    (∀ cur, lookupS reg (strKey obs) = some cur → cur ≤ v →
      update_value cfg reg obs v = (false, 0, reg)) := by
  refine ⟨fun h => ?_, fun cur h hlt => ?_, fun cur h hge => ?_⟩
  · simp [update_value, h, lookupS_setS_self]
  · simp [update_value, h, hlt, lookupS_setS_self]
  · simp [update_value, h, not_lt_of_ge hge]

/-- Witness for C1 at `gamma = 1/2`: tightening a registered bound of 2
with candidate 1 succeeds with delta 1, while candidate 3 is rejected. -/
theorem c1_update_value_witness :
    update_value cfgHalf [("A", 2)] (some "A") 1 = (true, 1, [("A", 1)]) ∧
    update_value cfgHalf [("A", 2)] (some "A") 3 = (false, 0, [("A", 2)]) := by
  constructor
  · have h := (c1_update_value cfgHalf [("A", 2)] (some "A") 1).2.1 2
      (by simp [lookupS, strKey]) (by norm_num)
    rw [h.1]
    norm_num [setS, strKey]
  · exact (c1_update_value cfgHalf [("A", 2)] (some "A") 3).2.2 2
      (by simp [lookupS, strKey]) (by norm_num)

/-- Counterexample to C1 as stated: with `gamma = 1/2` the default bound is
2, and tightening a never-seen state with the candidate 2 (which is not
strictly below the current, defaulted bound) does not return `(false, 0)`
with the registry unchanged — the code stores the candidate because the key
is absent. -/
theorem c1_counterexample :
    ¬ (∀ (cfg : Config) (reg : Reg) (obs : Option String) (v : ℚ),
        ((lookupS reg (strKey obs)).getD (maxValue cfg)) ≤ v →
        update_value cfg reg obs v = (false, 0, reg)) := by
  intro h
  have h2 := h cfgHalf [] (some "A") 2
    (by norm_num [lookupS, maxValue, cfgHalf])
  simp [update_value, lookupS, strKey] at h2

/-- C6: on a node whose state is registered, the upper bound is exactly
`value + gamma ^ depth * bound`. -/
theorem c6_bound_formula (cfg : Config) (nodes : NodeMap) (reg : Reg)
    (nid : Nat) (nd : NodeData) (b : ℚ)
    (h1 : lookupN nodes nid = some nd)
    (h2 : lookupS reg (strKey nd.observation) = some b) :
    get_value_upper_bound cfg nodes reg nid =
      some (nd.value + cfg.gamma ^ nd.depth * b) := by
  simp [get_value_upper_bound, h1, h2]

/-- Witness for C6: the child of the two-node chain has accumulated value 1,
depth 1 and registered bound 2, so its upper bound is `1 + (1/2)^1 * 2 = 2`. -/
theorem c6_bound_formula_witness :
    get_value_upper_bound cfgHalf nodesChain regChain 1 = some 2 := by
  have h := c6_bound_formula cfgHalf nodesChain regChain 1
    ⟨some 0, [], 1, 1, 1, false, some "B"⟩ 2
    (by simp [nodesChain, lookupN]) (by simp [regChain, lookupS, strKey])
  rw [h]
  norm_num [cfgHalf]

/-- C9: when the frontier list is empty, the selection step of `run`
(`max` over the frontier) raises instead of silently doing nothing. -/
theorem c9_empty_frontier (p : Planner) (h : p.leaves = []) :
    run_select p = none := by
  simp [run_select, h, maxByUcb, ucbKeys]

/-- Witness for C9 on a concrete planner with an empty frontier. -/
theorem c9_empty_frontier_witness : run_select pEmptyFrontier = none :=
  c9_empty_frontier pEmptyFrontier rfl

/-! Lemmas about `update`. -/

theorem isChildless_setN (nodes : NodeMap) (nid : Nat) (nd nd1 : NodeData)
    (hn : lookupN nodes nid = some nd) (hch : nd1.childrenIds = nd.childrenIds)
    (m : Nat) : isChildless (setN nodes nid nd1) m = isChildless nodes m := by
  by_cases hm : m = nid
  · subst hm
    simp [isChildless, lookupN_setN_self, hn, hch]
  · simp [isChildless, lookupN_setN_ne _ _ _ _ hm]

theorem pruneCandsOf_setN (sn : StateNodes) (nodes : NodeMap) (leaves : List Nat)
    (nid : Nat) (obs : Option String) (nd nd1 : NodeData)
    (hn : lookupN nodes nid = some nd) (hch : nd1.childrenIds = nd.childrenIds) :
    pruneCandsOf sn (setN nodes nid nd1) leaves nid obs =
      pruneCandsOf sn nodes leaves nid obs := by
  unfold pruneCandsOf
  apply List.filter_congr
  intro m _
  rw [isChildless_setN nodes nid nd nd1 hn hch m]

/-- Inversion of a successful `update` call: the new planner state in terms
of the old one. -/
theorem update_some_elim (p : Planner) (nid : Nat) (r : ℚ) (d : Bool)
    (obs : Option String) (p' : Planner) (h : update p nid r d obs = some p') :
    ∃ nd, lookupN p.nodes nid = some nd ∧
      p'.cfg = p.cfg ∧ p'.root = p.root ∧
      p'.nodes = setN p.nodes nid { nd with reward := r, done := d, observation := obs } ∧
      p'.state_nodes = register_node p.state_nodes (strKey obs) nid ∧
      p'.state_values =
        (update_value p.cfg p.state_values obs (default_future_value p.cfg d)).2.2 ∧
      ((p.cfg.prune_suboptimal_leaves = false ∧ p'.leaves = p.leaves) ∨
       (p.cfg.prune_suboptimal_leaves = true ∧ ∃ best,
          maxByUcb p.cfg p'.nodes p'.state_values
              (pruneCandsOf p.state_nodes p'.nodes p.leaves nid obs) = some best ∧
          pruneLeaves p.leaves (pruneCandsOf p.state_nodes p'.nodes p.leaves nid obs)
              best = some p'.leaves)) := by
  unfold update at h
  split at h
  · cases h
  next nd hn =>
    refine ⟨nd, hn, ?_⟩
    simp only [] at h
    split at h
    next hpr =>
      split at h
      · cases h
      next best hbest =>
        split at h
        · cases h
        next leaves1 hleaves =>
          injection h with h
          subst h
          exact ⟨rfl, rfl, rfl, rfl, rfl, Or.inr ⟨by simpa using hpr, best, hbest, hleaves⟩⟩
    next hpr =>
      injection h with h
      subst h
      exact ⟨rfl, rfl, rfl, rfl, rfl, Or.inl ⟨by simpa using hpr, rfl⟩⟩

/-- C10: with pruning enabled, `update` succeeds only when some node
registered under the new observation key (the updated node included) is both
childless and a frontier member; when no such node exists the `max` over an
empty collection fails. -/
theorem c10_prune_precondition (p : Planner) (nid : Nat) (r : ℚ) (d : Bool)
    (obs : Option String) (hpr : p.cfg.prune_suboptimal_leaves = true) :
    ((∃ p', update p nid r d obs = some p') →
        pruneCandsOf p.state_nodes p.nodes p.leaves nid obs ≠ []) ∧
    (pruneCandsOf p.state_nodes p.nodes p.leaves nid obs = [] →
        update p nid r d obs = none) := by
  have key : pruneCandsOf p.state_nodes p.nodes p.leaves nid obs = [] →
      update p nid r d obs = none := by
    intro hempty
    unfold update
    cases hn : lookupN p.nodes nid with
    | none => rfl
    | some nd =>
      have hc : pruneCandsOf p.state_nodes
          (setN p.nodes nid { nd with reward := r, done := d, observation := obs })
          p.leaves nid obs = [] := by
        rw [pruneCandsOf_setN p.state_nodes p.nodes p.leaves nid obs nd
          { nd with reward := r, done := d, observation := obs } hn rfl]
        exact hempty
      simp [hpr, hc, maxByUcb, ucbKeys]
  refine ⟨?_, key⟩
  rintro ⟨p', hp'⟩ hempty
  rw [key hempty] at hp'
  cases hp'

/-- Witness for C10: updating the fresh node 5, which is not yet a member of
the frontier list and whose state is new, makes the candidate list empty and
the update fail. -/
theorem c10_prune_precondition_witness : update pFresh 5 1 false (some "B") = none := by
  refine (c10_prune_precondition pFresh 5 1 false (some "B") rfl).2 ?_
  simp [pruneCandsOf, register_node, pFresh, lookupS, setS, strKey, isChildless,
    lookupN, List.contains]

/-- C5, amended.  A bound lookup for an absent state raises (`none`) in
`get_value_upper_bound` and in the one-step Bellman candidate of
`backup_to_root`, both of which index the registry directly; only
`update_value` applies the `1/(1-gamma)` default to an absent state. -/
theorem c5_absent_state_lookup :
    (∀ (cfg : Config) (nodes : NodeMap) (reg : Reg) (nid : Nat) (nd : NodeData),
      lookupN nodes nid = some nd → lookupS reg (strKey nd.observation) = none →
      get_value_upper_bound cfg nodes reg nid = none) ∧
    (∀ (cfg : Config) (nodes : NodeMap) (reg : Reg) (bc : Nat) (bcd : NodeData),
      lookupN nodes bc = some bcd → lookupS reg (strKey bcd.observation) = none →
      backupCandidate cfg nodes reg bc = none) ∧
    (∀ (cfg : Config) (reg : Reg) (obs : Option String) (v : ℚ),
      lookupS reg (strKey obs) = none →
      update_value cfg reg obs v = (true, maxValue cfg - v, setS reg (strKey obs) v)) := by
  refine ⟨fun cfg nodes reg nid nd h1 h2 => ?_, fun cfg nodes reg bc bcd h1 h2 => ?_,
    fun cfg reg obs v h => ?_⟩
  · simp [get_value_upper_bound, h1, h2]
  · simp [backupCandidate, h1, h2]
  · simp [update_value, h]

/-- Witness for C5 (amended) on a node at the unregistered state `X`. -/
theorem c5_absent_state_lookup_witness :
    get_value_upper_bound cfgHalf nodesOne [] 0 = none ∧
    backupCandidate cfgHalf nodesOne [] 0 = none ∧
    update_value cfgHalf [] (some "X") 1 = (true, 1, [("X", 1)]) := by
  refine ⟨c5_absent_state_lookup.1 cfgHalf nodesOne [] 0
      ⟨none, [], 0, 0, 0, false, some "X"⟩ (by simp [nodesOne, lookupN]) rfl,
    c5_absent_state_lookup.2.1 cfgHalf nodesOne [] 0
      ⟨none, [], 0, 0, 0, false, some "X"⟩ (by simp [nodesOne, lookupN]) rfl,
    ?_⟩
  rw [c5_absent_state_lookup.2.2 cfgHalf [] (some "X") 1 rfl]
  norm_num [maxValue, cfgHalf, setS, strKey]

/-- Counterexample to C5 as stated: looking up the bound of the unseen state
`X` through `get_value_upper_bound` (or through the Bellman candidate) does
not produce the `1/(1-gamma)` default — the plain dict index fails. -/
theorem c5_counterexample :
    ¬ (∀ (cfg : Config) (nodes : NodeMap) (reg : Reg) (nid : Nat) (nd : NodeData),
        lookupN nodes nid = some nd → lookupS reg (strKey nd.observation) = none →
        get_value_upper_bound cfg nodes reg nid =
            some (nd.value + cfg.gamma ^ nd.depth * maxValue cfg) ∧
        backupCandidate cfg nodes reg nid =
            some (nd.reward + cfg.gamma * maxValue cfg)) := by
  intro h
  have h2 := h cfgHalf nodesOne [] 0 ⟨none, [], 0, 0, 0, false, some "X"⟩
    (by simp [nodesOne, lookupN]) rfl
  simp [get_value_upper_bound, nodesOne, lookupN, lookupS, strKey] at h2

/-- C8, amended.  The default-estimate tighten inside `update` leaves the
stored bound of an already-seen state unchanged on a non-terminal
transition (given the bound is at most `1/(1-gamma)`), but a terminal
transition into an already-seen state with a positive bound tightens that
bound to 0. -/
theorem c8_default_tighten (p : Planner) (nid : Nat) (r : ℚ) (obs : Option String)
    (v : ℚ) (hv : lookupS p.state_values (strKey obs) = some v) :
    (∀ p', update p nid r false obs = some p' → v ≤ maxValue p.cfg →
      lookupS p'.state_values (strKey obs) = some v) ∧
    (∀ p', update p nid r true obs = some p' → 0 < v →
      lookupS p'.state_values (strKey obs) = some 0) := by
  constructor
  · intro p' h hle
    obtain ⟨nd, _, _, _, _, _, hsv, _⟩ := update_some_elim p nid r false obs p' h
    rw [hsv]
    simp [update_value, default_future_value, hv, not_lt_of_ge hle]
  · intro p' h hpos
    obtain ⟨nd, _, _, _, _, _, hsv, _⟩ := update_some_elim p nid r true obs p' h
    rw [hsv]
    simp [update_value, default_future_value, hv, hpos, lookupS_setS_self]

/-- Witness for C8 (amended): on `pTerm` the state `B` is registered at
bound 2; a non-terminal update leaves it at 2 while a terminal update
drives it to 0. -/
theorem c8_default_tighten_witness :
    lookupS pTermRes2.state_values "B" = some 2 ∧
    lookupS pTermRes.state_values "B" = some 0 := by
  have hb : lookupS pTerm.state_values (strKey (some "B")) = some 2 := by
    simp [pTerm, lookupS, strKey]
  have h1 := (c8_default_tighten pTerm 1 0 (some "B") 2 hb).1 pTermRes2
    (by norm_num [update, pTerm, pTermRes2, lookupN, setN, register_node,
      update_value, lookupS, setS, strKey, default_future_value, maxValue,
      cfgNoPrune])
    (by norm_num [maxValue, pTerm, cfgNoPrune])
  have h2 := (c8_default_tighten pTerm 1 0 (some "B") 2 hb).2 pTermRes
    (by norm_num [update, pTerm, pTermRes, lookupN, setN, register_node,
      update_value, lookupS, setS, strKey, default_future_value, maxValue,
      cfgNoPrune])
    (by norm_num)
  exact ⟨by simpa [strKey] using h1, by simpa [strKey] using h2⟩

/-- Counterexample to C8 as stated: updating node 1 of `pTerm` with a
terminal transition into the already-seen state `B` (bound 2) changes the
stored bound of `B` (to 0), so a later `on_transition` call on a present
state is not always registry-neutral. -/
theorem c8_counterexample :
    ¬ (∀ (p : Planner) (nid : Nat) (r : ℚ) (d : Bool) (obs : Option String)
        (v : ℚ) (p' : Planner),
        lookupS p.state_values (strKey obs) = some v →
        update p nid r d obs = some p' →
        lookupS p'.state_values (strKey obs) = some v) := by
  intro h
  have h2 := h pTerm 1 0 true (some "B") 2 pTermRes
    (by simp [pTerm, lookupS, strKey])
    (by norm_num [update, pTerm, pTermRes, lookupN, setN, register_node,
      update_value, lookupS, setS, strKey, default_future_value, maxValue,
      cfgNoPrune])
  simp [pTermRes, lookupS, strKey] at h2

/-- C7: `backup_to_root` recurses exactly when the tighten succeeded with an
improvement strictly above `stopping_accuracy`.  A childless node returns 0
with the registry untouched; when the gate fails — in particular when the
tighten succeeded but the delta does not exceed the threshold — the call
returns count 1 with only the single tighten applied, whatever the
configuration; when the gate holds the parent is backed up and its count is
added, and, with `backup_aggregated_nodes` enabled, the call then walks the
list of nodes registered under this node's state, recursing into the parent
of every one other than the caller — stated both as the fold over the
registered list seeded with the parent's result, and concretely for a state
with one other registered node, whose parent's backup count and registry
show up in the result. -/
theorem c7_backup_gating :
    (∀ (cfg : Config) (nodes : NodeMap) (sn : StateNodes) (fuel : Nat) (reg : Reg)
        (nid : Nat) (nd : NodeData), lookupN nodes nid = some nd →
        nd.childrenIds = [] →
        backupFuel cfg nodes sn (fuel + 1) reg nid = some (Except.ok (0, reg))) ∧
    (∀ (cfg : Config) (nodes : NodeMap) (sn : StateNodes) (fuel : Nat) (reg : Reg)
        (nid : Nat) (nd : NodeData) (bc : Nat) (bk : ℚ) (upd : Bool) (δ : ℚ)
        (reg1 : Reg), lookupN nodes nid = some nd →
        nd.childrenIds ≠ [] →
        maxByUcb cfg nodes reg nd.childrenIds = some bc →
        backupCandidate cfg nodes reg bc = some bk →
        update_value cfg reg nd.observation bk = (upd, δ, reg1) →
        ¬(upd = true ∧ cfg.stopping_accuracy < δ) →
        backupFuel cfg nodes sn (fuel + 1) reg nid = some (Except.ok (1, reg1))) ∧
    (∀ (cfg : Config) (nodes : NodeMap) (sn : StateNodes) (fuel : Nat) (reg : Reg)
        (nid : Nat) (nd : NodeData) (bc : Nat) (bk δ : ℚ) (reg1 : Reg) (q : Nat)
        (c1 : Nat) (r1 : Reg), lookupN nodes nid = some nd →
        nd.childrenIds ≠ [] →
        maxByUcb cfg nodes reg nd.childrenIds = some bc →
        backupCandidate cfg nodes reg bc = some bk →
        update_value cfg reg nd.observation bk = (true, δ, reg1) →
        cfg.stopping_accuracy < δ →
        nd.parent = some q →
        cfg.backup_aggregated_nodes = false →
        backupFuel cfg nodes sn fuel reg1 q = some (Except.ok (c1, r1)) →
        backupFuel cfg nodes sn (fuel + 1) reg nid = some (Except.ok (1 + c1, r1))) ∧
    (∀ (cfg : Config) (nodes : NodeMap) (sn : StateNodes) (fuel : Nat) (reg : Reg)
        (nid : Nat) (nd : NodeData) (bc : Nat) (bk δ : ℚ) (reg1 : Reg) (q : Nat)
        (c1 : Nat) (r1 : Reg) (others : List Nat), lookupN nodes nid = some nd →
        nd.childrenIds ≠ [] →
        maxByUcb cfg nodes reg nd.childrenIds = some bc →
        backupCandidate cfg nodes reg bc = some bk →
        update_value cfg reg nd.observation bk = (true, δ, reg1) →
        cfg.stopping_accuracy < δ →
        nd.parent = some q →
        cfg.backup_aggregated_nodes = true →
        backupFuel cfg nodes sn fuel reg1 q = some (Except.ok (c1, r1)) →
        lookupS sn (strKey nd.observation) = some others →
        backupFuel cfg nodes sn (fuel + 1) reg nid =
          backupAgg (fun r q' => backupFuel cfg nodes sn fuel r q') nodes nid
            others (some (Except.ok (1 + c1, r1)))) ∧
    (∀ (cfg : Config) (nodes : NodeMap) (sn : StateNodes) (fuel : Nat) (reg : Reg)
        (nid : Nat) (nd : NodeData) (bc : Nat) (bk δ : ℚ) (reg1 : Reg) (q : Nat)
        (c1 : Nat) (r1 : Reg) (m : Nat) (md : NodeData) (q2 : Nat) (c2 : Nat)
        (r2 : Reg), lookupN nodes nid = some nd →
        nd.childrenIds ≠ [] →
        maxByUcb cfg nodes reg nd.childrenIds = some bc →
        backupCandidate cfg nodes reg bc = some bk →
        update_value cfg reg nd.observation bk = (true, δ, reg1) →
        cfg.stopping_accuracy < δ →
        nd.parent = some q →
        cfg.backup_aggregated_nodes = true →
        backupFuel cfg nodes sn fuel reg1 q = some (Except.ok (c1, r1)) →
        lookupS sn (strKey nd.observation) = some [nid, m] →
        m ≠ nid →
        lookupN nodes m = some md →
        md.parent = some q2 →
        backupFuel cfg nodes sn fuel r1 q2 = some (Except.ok (c2, r2)) →
        backupFuel cfg nodes sn (fuel + 1) reg nid =
          some (Except.ok (1 + c1 + c2, r2))) := by
  refine ⟨fun cfg nodes sn fuel reg nid nd h1 h2 => ?_,
    fun cfg nodes sn fuel reg nid nd bc bk upd δ reg1 h1 h2 h3 h4 h5 h6 => ?_,
    fun cfg nodes sn fuel reg nid nd bc bk δ reg1 q c1 r1 h1 h2 h3 h4 h5 h6 h7 h8 h9 => ?_,
    fun cfg nodes sn fuel reg nid nd bc bk δ reg1 q c1 r1 others
      h1 h2 h3 h4 h5 h6 h7 h8 h9 h10 => ?_,
    fun cfg nodes sn fuel reg nid nd bc bk δ reg1 q c1 r1 m md q2 c2 r2
      h1 h2 h3 h4 h5 h6 h7 h8 h9 h10 h11 h12 h13 h14 => ?_⟩
  · simp [backupFuel, h1, h2]
  · simp [backupFuel, h1, h2, h3, h4, h5, h6]
  · simp [backupFuel, h1, h2, h3, h4, h5, h6, h7, h8, h9]
  · simp [backupFuel, h1, h2, h3, h4, h5, h6, h7, h8, h9, h10]
  · simp [backupFuel, backupAgg, h1, h2, h3, h4, h5, h6, h7, h8, h9, h10,
      h11, h12, h13, h14]

/-- Witness for C7: a childless node returns `(0, reg)`; the chain root with
a rejected tighten returns `(1, reg)` without recursing; the middle node of
a three-node chain with a successful tighten of delta 1 recurses into the
root and returns count 2 with both tightens applied; and on the tree with
two nodes aggregated at state `B`, the backup of node 1 recurses into the
root and then, through the aggregation list, into the parent of the sibling
node 2, returning count 3. -/
theorem c7_backup_gating_witness :
    backupFuel cfgHalf nodesOne [] 1 [] 0 = some (Except.ok (0, [])) ∧
    backupFuel cfgHalf nodesChain [] 1 regChain 0 = some (Except.ok (1, regChain)) ∧
    backupFuel cfgNoAgg nodesChain3 snChain3 2 regChain3 1 =
      some (Except.ok (2, regChain3res)) ∧
    backupFuel cfgHalf nodesAgg snAgg 3 regAgg 1 =
      some (Except.ok (3, regAggRes)) := by
  refine ⟨?_, ?_, ?_, ?_⟩
  · exact c7_backup_gating.1 cfgHalf nodesOne [] 0 [] 0
      ⟨none, [], 0, 0, 0, false, some "X"⟩ (by simp [nodesOne, lookupN]) rfl
  · exact c7_backup_gating.2.1 cfgHalf nodesChain [] 0 regChain 0
      ⟨none, [1], 0, 0, 0, false, some "A"⟩ 1 2 false 0 regChain
      (by simp [nodesChain, lookupN])
      (by simp)
      (by norm_num [maxByUcb, ucbKeys, get_value_upper_bound, nodesChain,
        regChain, lookupN, lookupS, strKey, firstArgmax, cfgHalf])
      (by norm_num [backupCandidate, nodesChain, regChain, lookupN, lookupS,
        strKey, cfgHalf])
      (by norm_num [update_value, regChain, lookupS, strKey])
      (by simp)
  · exact c7_backup_gating.2.2.1 cfgNoAgg nodesChain3 snChain3 1 regChain3 1
      ⟨some 0, [2], 0, 0, 1, false, some "B"⟩ 2 1 1 [("A", 2), ("B", 1), ("C", 0)]
      0 1 regChain3res
      (by simp [nodesChain3, lookupN])
      (by simp)
      (by simp [maxByUcb, ucbKeys, get_value_upper_bound, nodesChain3,
        regChain3, lookupN, lookupS, strKey, firstArgmax, cfgNoAgg])
      (by simp [backupCandidate, nodesChain3, regChain3, lookupN, lookupS,
        strKey, cfgNoAgg])
      (by simp [update_value, regChain3, lookupS, strKey, setS]; norm_num)
      (by norm_num [cfgNoAgg])
      (by simp)
      (by simp [cfgNoAgg])
      (by simp [backupFuel, nodesChain3, snChain3, regChain3res, lookupN,
        lookupS, strKey, maxByUcb, ucbKeys, get_value_upper_bound,
        backupCandidate, update_value, setS, firstArgmax, cfgNoAgg]; norm_num)
  · have h := c7_backup_gating.2.2.2.2 cfgHalf nodesAgg snAgg 2 regAgg 1
      ⟨some 0, [3], 0, 0, 1, false, some "B"⟩ 3 1 1 [("A", 2), ("B", 1), ("C", 0)]
      0 1 regAggRes 2 ⟨some 0, [], 0, 0, 1, false, some "B"⟩ 0 1 regAggRes
      (by simp [nodesAgg, lookupN])
      (by simp)
      (by simp [maxByUcb, ucbKeys, get_value_upper_bound, nodesAgg, regAgg,
        lookupN, lookupS, strKey, firstArgmax, cfgHalf])
      (by simp [backupCandidate, nodesAgg, regAgg, lookupN, lookupS, strKey,
        cfgHalf])
      (by simp [update_value, regAgg, lookupS, strKey, setS]; norm_num)
      (by norm_num [cfgHalf])
      (by simp)
      (by simp [cfgHalf])
      (by simp [backupFuel, nodesAgg, snAgg, regAggRes, lookupN, lookupS,
        strKey, maxByUcb, ucbKeys, get_value_upper_bound, backupCandidate,
        update_value, setS, firstArgmax, backupAgg, cfgHalf]; norm_num)
      (by simp [snAgg, lookupS, strKey])
      (by norm_num)
      (by simp [nodesAgg, lookupN])
      (by simp)
      (by simp [backupFuel, nodesAgg, snAgg, regAggRes, lookupN, lookupS,
        strKey, maxByUcb, ucbKeys, get_value_upper_bound, backupCandidate,
        update_value, setS, firstArgmax, backupAgg, cfgHalf])
    rw [h]

/-! Lemmas about frontier pruning. -/

theorem removeFirst_some_spec :
    ∀ (l : List Nat) (c : Nat) (l' : List Nat), l.Nodup →
      removeFirst l c = some l' →
      l'.Nodup ∧ ∀ m, m ∈ l' ↔ m ∈ l ∧ m ≠ c := by
  intro l
  induction l with
  | nil => intro c l' _ h; cases h
  | cons x rest ih =>
    intro c l' hnd h
    rw [List.nodup_cons] at hnd
    by_cases hx : x = c
    · subst hx
      simp only [removeFirst, if_pos rfl] at h
      injection h with h
      subst h
      refine ⟨hnd.2, fun m => ⟨fun hm => ⟨List.mem_cons_of_mem _ hm, ?_⟩, fun hm => ?_⟩⟩
      · intro hmx
        exact hnd.1 (hmx ▸ hm)
      · rcases List.mem_cons.1 hm.1 with h1 | h1
        · exact absurd h1 hm.2
        · exact h1
    · simp only [removeFirst, if_neg hx] at h
      cases hrec : removeFirst rest c with
      | none => rw [hrec] at h; cases h
      | some l1 =>
        rw [hrec] at h
        injection h with h
        subst h
        obtain ⟨hnd1, hmem⟩ := ih c l1 hnd.2 hrec
        refine ⟨List.nodup_cons.2 ⟨fun hx1 => hnd.1 ((hmem x).1 hx1).1, hnd1⟩, fun m => ?_⟩
        constructor
        · intro hm
          rcases List.mem_cons.1 hm with h1 | h1
          · exact ⟨h1 ▸ List.mem_cons_self _ _, h1 ▸ hx⟩
          · obtain ⟨h2, h3⟩ := (hmem m).1 h1
            exact ⟨List.mem_cons_of_mem _ h2, h3⟩
        · rintro ⟨hm, hmc⟩
          rcases List.mem_cons.1 hm with h1 | h1
          · exact h1 ▸ List.mem_cons_self _ _
          · exact List.mem_cons_of_mem _ ((hmem m).2 ⟨h1, hmc⟩)

theorem pruneLeaves_some_spec :
    ∀ (cands : List Nat) (leaves : List Nat) (best : Nat) (l' : List Nat),
      leaves.Nodup → pruneLeaves leaves cands best = some l' →
      l'.Nodup ∧ ∀ m, m ∈ l' → m ∈ leaves ∧ (m = best ∨ m ∉ cands) := by
  intro cands
  induction cands with
  | nil =>
    intro leaves best l' hnd h
    simp only [pruneLeaves] at h
    injection h with h
    subst h
    exact ⟨hnd, fun m hm => ⟨hm, Or.inr (List.not_mem_nil m)⟩⟩
  | cons c rest ih =>
    intro leaves best l' hnd h
    by_cases hc : c = best
    · simp only [pruneLeaves, if_pos hc] at h
      obtain ⟨hnd', hspec⟩ := ih leaves best l' hnd h
      refine ⟨hnd', fun m hm => ?_⟩
      obtain ⟨h1, h2⟩ := hspec m hm
      refine ⟨h1, ?_⟩
      rcases h2 with h2 | h2
      · exact Or.inl h2
      · by_cases hmb : m = best
        · exact Or.inl hmb
        · refine Or.inr (fun hmem => ?_)
          rcases List.mem_cons.1 hmem with h3 | h3
          · exact hmb (h3.trans hc)
          · exact h2 h3
    · simp only [pruneLeaves, if_neg hc] at h
      cases hrf : removeFirst leaves c with
      | none => rw [hrf] at h; cases h
      | some l1 =>
        rw [hrf] at h
        obtain ⟨hnd1, hmem1⟩ := removeFirst_some_spec leaves c l1 hnd hrf
        obtain ⟨hnd', hspec⟩ := ih l1 best l' hnd1 h
        refine ⟨hnd', fun m hm => ?_⟩
        obtain ⟨h1, h2⟩ := hspec m hm
        obtain ⟨h3, h4⟩ := (hmem1 m).1 h1
        refine ⟨h3, ?_⟩
        rcases h2 with h2 | h2
        · exact Or.inl h2
        · refine Or.inr (fun hmem => ?_)
          rcases List.mem_cons.1 hmem with h5 | h5
          · exact h4 h5
          · exact h2 h5

theorem mem_frontierAt (p : Planner) (k : String) (m : Nat) :
    m ∈ frontierAt p k ↔
      m ∈ (lookupS p.state_nodes k).getD [] ∧
      isChildless p.nodes m = true ∧ m ∈ p.leaves := by
  simp [frontierAt, List.mem_filter, and_assoc]

/-- Single `update` step with pruning enabled preserves the planner
invariant. -/
theorem update_preserves_inv (p : Planner) (nid : Nat) (r : ℚ) (d : Bool)
    (obs : Option String) (p' : Planner)
    (hpr : p.cfg.prune_suboptimal_leaves = true)
    (hInv : PlannerInv p) (h : update p nid r d obs = some p') :
    PlannerInv p' := by
  obtain ⟨nd, hn, hcfg, hroot, hnodes, hsn, hsv, hbr⟩ :=
    update_some_elim p nid r d obs p' h
  rcases hbr with ⟨hpf, _⟩ | ⟨_, best, hbest, hleaves⟩
  · rw [hpr] at hpf; cases hpf
  obtain ⟨hnd', hspec⟩ :=
    pruneLeaves_some_spec (pruneCandsOf p.state_nodes p'.nodes p.leaves nid obs)
      p.leaves best p'.leaves hInv.1 hleaves
  have hchild : ∀ m, isChildless p'.nodes m = isChildless p.nodes m := by
    intro m
    rw [hnodes]
    exact isChildless_setN p.nodes nid nd
      { nd with reward := r, done := d, observation := obs } hn rfl m
  refine ⟨hnd', fun k m₁ m₂ h₁ h₂ => ?_⟩
  by_cases hk : k = strKey obs
  · subst hk
    have key : ∀ m, m ∈ frontierAt p' (strKey obs) → m = best := by
      intro m hm
      obtain ⟨hm1, hm2, hm3⟩ := (mem_frontierAt p' (strKey obs) m).1 hm
      obtain ⟨hml, hmb⟩ := hspec m hm3
      rcases hmb with hmb | hmb
      · exact hmb
      · exfalso
        apply hmb
        unfold pruneCandsOf
        rw [← hsn]
        refine List.mem_filter.2 ⟨hm1, ?_⟩
        simp [hm2, hml]
    rw [key m₁ h₁, key m₂ h₂]
  · have sub : ∀ m, m ∈ frontierAt p' k → m ∈ frontierAt p k := by
      intro m hm
      obtain ⟨hm1, hm2, hm3⟩ := (mem_frontierAt p' k m).1 hm
      refine (mem_frontierAt p k m).2 ⟨?_, ?_, (hspec m hm3).1⟩
      · rw [hsn] at hm1
        unfold register_node at hm1
        rwa [lookupS_setS_ne _ _ _ _ hk] at hm1
      · rw [← hchild m]
        exact hm2
    exact hInv.2 k m₁ m₂ (sub m₁ h₁) (sub m₂ h₂)

/-- C4: after any sequence of successful `on_transition` (`update`) calls
with pruning enabled, starting from a planner satisfying the invariant, at
most one childless frontier node is registered under every state key — and
the surviving one therefore has maximal upper bound among the registered
childless frontier nodes of its key. -/
theorem c4_pruning_invariant (ops : List PlannerOp) (p p' : Planner)
    (hpr : p.cfg.prune_suboptimal_leaves = true)
    (hInv : PlannerInv p)
    (htr : ∀ op ∈ ops, isTransition op = true)
    (h : applyOps ops p = some p') :
    PlannerInv p' ∧
    (∀ k m₁ m₂, m₁ ∈ frontierAt p' k → m₂ ∈ frontierAt p' k → m₁ = m₂) ∧
    (∀ k m₁ m₂ v₁ v₂, m₁ ∈ frontierAt p' k → m₂ ∈ frontierAt p' k →
      get_value_upper_bound p'.cfg p'.nodes p'.state_values m₁ = some v₁ →
      get_value_upper_bound p'.cfg p'.nodes p'.state_values m₂ = some v₂ →
      v₂ ≤ v₁) := by
  have main : ∀ (ops : List PlannerOp) (p : Planner),
      p.cfg.prune_suboptimal_leaves = true → PlannerInv p →
      (∀ op ∈ ops, isTransition op = true) →
      applyOps ops p = some p' → PlannerInv p' := by
    intro ops
    induction ops with
    | nil =>
      intro p hpr hInv _ h
      simp only [applyOps] at h
      injection h with h
      exact h ▸ hInv
    | cons op rest ih =>
      intro p hpr hInv htr h
      simp only [applyOps] at h
      cases hop : applyOp p op with
      | none => rw [hop] at h; cases h
      | some p1 =>
        rw [hop] at h
        have htrh := htr op (List.mem_cons_self _ _)
        cases op with
        | upd_val o v => simp [isTransition] at htrh
        | backup n f => simp [isTransition] at htrh
        | plan_seed o => simp [isTransition] at htrh
        | transition n r d o =>
          simp only [applyOp] at hop
          obtain ⟨_, _, hcfg, _⟩ := update_some_elim p n r d o p1 hop
          exact ih p1 (hcfg ▸ hpr)
            (update_preserves_inv p n r d o p1 hpr hInv hop)
            (fun op' hop' => htr op' (List.mem_cons_of_mem _ hop')) h
  have hInv' := main ops p hpr hInv htr h
  refine ⟨hInv', hInv'.2, fun k m₁ m₂ v₁ v₂ h₁ h₂ hv₁ hv₂ => ?_⟩
  have := hInv'.2 k m₁ m₂ h₁ h₂
  subst this
  rw [hv₁] at hv₂
  injection hv₂ with hv₂
  exact le_of_eq hv₂.symm

/-- Witness for C4: updating the fresh frontier node 1 of `pW4` into the
new state `B` keeps the invariant. -/
theorem c4_pruning_invariant_witness : PlannerInv pW4res := by
  refine (c4_pruning_invariant [.transition 1 1 false (some "B")] pW4 pW4res
    rfl ⟨List.nodup_singleton 1, ?_⟩ ?_ ?_).1
  · intro k m₁ m₂ h₁ h₂
    by_cases hk : k = "A" <;>
      simp [frontierAt, pW4, lookupS, hk, isChildless, lookupN] at h₁
  · intro op hop
    rcases List.mem_singleton.1 hop with rfl
    rfl
  · simp [applyOps, applyOp, update, pW4, pW4res, lookupN, setN, register_node,
      pruneCandsOf, isChildless, update_value, lookupS, setS, strKey,
      default_future_value, maxByUcb, ucbKeys, get_value_upper_bound,
      firstArgmax, pruneLeaves, removeFirst, maxValue, cfgHalf]
    norm_num

/-! Monotone registry evolution under backup. -/

theorem backupAgg_regStep (g : Reg → Nat → BackupResult) (nodes : NodeMap)
    (selfId : Nat)
    (hg : ∀ r q c2 r2, g r q = some (Except.ok (c2, r2)) → RegStep r r2) :
    ∀ (l : List Nat) (acc : BackupResult) (c : Nat) (r' : Reg),
      backupAgg g nodes selfId l acc = some (Except.ok (c, r')) →
      ∃ c0 r0, acc = some (Except.ok (c0, r0)) ∧ RegStep r0 r' := by
  intro l
  induction l with
  | nil =>
    intro acc c r' h
    exact ⟨c, r', h, regStep_refl r'⟩
  | cons m rest ih =>
    intro acc c r' h
    simp only [backupAgg] at h
    obtain ⟨c1, r1, hstep, hs⟩ := ih _ c r' h
    split at hstep
    next c0 r0 =>
      refine ⟨c0, r0, rfl, ?_⟩
      by_cases hm : m = selfId
      · rw [if_pos hm] at hstep
        simp only [Option.some.injEq, Except.ok.injEq, Prod.mk.injEq] at hstep
        exact hstep.2 ▸ hs
      · rw [if_neg hm] at hstep
        split at hstep
        · simp at hstep
        next md hln =>
          split at hstep
          · simp only [Option.some.injEq, Except.ok.injEq, Prod.mk.injEq] at hstep
            exact hstep.2 ▸ hs
          next q hpar =>
            split at hstep
            next c2 r2 hgr =>
              simp only [Option.some.injEq, Except.ok.injEq, Prod.mk.injEq] at hstep
              exact regStep_trans (hg r0 q c2 r2 hgr) (hstep.2 ▸ hs)
            next e2 hne2 =>
              exact absurd hstep (by simpa using hne2 c1 r1)
    next e hne => exact absurd hstep (by simpa using hne c1 r1)

theorem backupFuel_regStep (cfg : Config) (nodes : NodeMap) (sn : StateNodes) :
    ∀ (fuel : Nat) (reg : Reg) (nid : Nat) (c : Nat) (reg' : Reg),
      backupFuel cfg nodes sn fuel reg nid = some (Except.ok (c, reg')) →
      RegStep reg reg' := by
  intro fuel
  induction fuel with
  | zero => intro reg nid c reg' h; cases h
  | succ f ih =>
    intro reg nid c reg' h
    simp only [backupFuel] at h
    split at h
    · simp at h
    next nd _ =>
      split at h
      · simp only [Option.some.injEq, Except.ok.injEq, Prod.mk.injEq] at h
        exact h.2 ▸ regStep_refl reg
      · split at h
        · simp at h
        next bc _ =>
          split at h
          · simp at h
          next bk _ =>
            have hstep1 : RegStep reg (update_value cfg reg nd.observation bk).2.2 :=
              update_value_regStep cfg reg nd.observation bk
            split at h
            next hcond =>
              split at h
              next hagg =>
                split at h
                · simp at h
                next others hlo =>
                  obtain ⟨c0, r0, hap, hsr⟩ :=
                    backupAgg_regStep _ nodes nid
                      (fun r q c2 r2 hh => ih r q c2 r2 hh) others _ c reg' h
                  refine regStep_trans hstep1 (regStep_trans ?_ hsr)
                  split at hap
                  next par hpar =>
                    split at hap
                    next cc rr hbk =>
                      simp only [Option.some.injEq, Except.ok.injEq,
                        Prod.mk.injEq] at hap
                      exact hap.2 ▸ ih _ par cc rr hbk
                    next e2 hne2 =>
                      exact absurd hap (by simpa using hne2 c0 r0)
                  next hpar =>
                    simp only [Option.some.injEq, Except.ok.injEq,
                      Prod.mk.injEq] at hap
                    exact hap.2 ▸ regStep_refl _
              next hagg =>
                refine regStep_trans hstep1 ?_
                split at h
                next par hpar =>
                  split at h
                  next cc rr hbk =>
                    simp only [Option.some.injEq, Except.ok.injEq,
                      Prod.mk.injEq] at h
                    exact h.2 ▸ ih _ par cc rr hbk
                  next e2 hne2 =>
                    exact absurd h (by simpa using hne2 c reg')
                next hpar =>
                  simp only [Option.some.injEq, Except.ok.injEq,
                    Prod.mk.injEq] at h
                  exact h.2 ▸ regStep_refl _
            next hcond =>
              simp only [Option.some.injEq, Except.ok.injEq, Prod.mk.injEq] at h
              exact h.2 ▸ hstep1

theorem applyOp_regStep (p p1 : Planner) (op : PlannerOp)
    (hop : isPlanSeed op = false) (h : applyOp p op = some p1) :
    RegStep p.state_values p1.state_values := by
  cases op with
  | upd_val obs v =>
    simp only [applyOp] at h
    injection h with h
    rw [← h]
    exact update_value_regStep p.cfg p.state_values obs v
  | transition nid r d obs =>
    simp only [applyOp] at h
    obtain ⟨nd, _, _, _, _, _, hsv, _⟩ := update_some_elim p nid r d obs p1 h
    rw [hsv]
    exact update_value_regStep p.cfg p.state_values obs
      (default_future_value p.cfg d)
  | backup nid fuel =>
    simp only [applyOp] at h
    split at h
    next cb reg1 hbk =>
      injection h with h
      rw [← h]
      exact backupFuel_regStep p.cfg p.nodes p.state_nodes fuel
        p.state_values nid cb reg1 hbk
    next hne => cases h
  | plan_seed obs => simp [isPlanSeed] at hop

theorem applyOps_regStep : ∀ (ops : List PlannerOp) (p p' : Planner),
    (∀ op ∈ ops, isPlanSeed op = false) → applyOps ops p = some p' →
    RegStep p.state_values p'.state_values := by
  intro ops
  induction ops with
  | nil =>
    intro p p' _ h
    simp only [applyOps] at h
    injection h with h
    exact h ▸ regStep_refl _
  | cons op rest ih =>
    intro p p' hops h
    simp only [applyOps] at h
    split at h
    · cases h
    next p1 hop =>
      exact regStep_trans
        (applyOp_regStep p p1 op (hops op (List.mem_cons_self _ _)) hop)
        (ih p1 p' (fun o ho => hops o (List.mem_cons_of_mem _ ho)) h)

/-- C2, amended.  Excluding the registry seeding done by `plan` (which
resets the current root state's bound to `1/(1-gamma)`), every planner
operation keeps each present bound present and never increases it: once a
state is in the registry, its bound is only ever replaced by a strictly
smaller candidate. -/
theorem c2_monotone_without_plan (ops : List PlannerOp) (p p' : Planner)
    (k : String) (v : ℚ)
    (hops : ∀ op ∈ ops, isPlanSeed op = false)
    (h : applyOps ops p = some p')
    (hv : lookupS p.state_values k = some v) :
    ∃ v', lookupS p'.state_values k = some v' ∧ v' ≤ v :=
  applyOps_regStep ops p p' hops h k v hv

/-- Witness for C2 (amended): tightening `A` from 2 with candidate 1 keeps
the key present with a value at most 2. -/
theorem c2_monotone_without_plan_witness :
    ∃ v', lookupS pSeed1.state_values "A" = some v' ∧ v' ≤ 2 :=
  c2_monotone_without_plan [.upd_val (some "A") 1] pSeed2 pSeed1 "A" 2
    (by
      intro op hop
      rcases List.mem_singleton.1 hop with rfl
      rfl)
    (by
      simp [applyOps, applyOp, update_value, lookupS, setS, strKey, pSeed2,
        pSeed1])
    (by simp [pSeed2, lookupS])

/-- Counterexample to C2 as stated: starting from a fresh planner, `plan`
seeds state `A` at bound 2, `update_value` tightens it to 1, and a second
`plan` call on the same observation resets it to 2 — the bound of `A`
increases over the planner's lifetime. -/
theorem c2_counterexample : ¬ ValuesMonotoneOverLifetime := by
  intro hmono
  have hev1 : applyOps [.plan_seed (some "A"), .upd_val (some "A") 1] pSeed =
      some pSeed1 := by
    simp [applyOps, applyOp, plan_init, update_value, lookupN, setN, lookupS,
      setS, strKey, maxValue, pSeed, pSeed1, cfgHalf]
    norm_num
  have hev2 : applyOps [.plan_seed (some "A")] pSeed1 = some pSeed2 := by
    simp [applyOps, applyOp, plan_init, lookupN, setN, lookupS, setS, strKey,
      maxValue, pSeed1, pSeed2, cfgHalf]
    norm_num
  have h2 := hmono pSeed pSeed1 pSeed2
    [.plan_seed (some "A"), .upd_val (some "A") 1] [.plan_seed (some "A")]
    "A" 1 2 hev1 hev2 (by simp [pSeed1, lookupS]) (by simp [pSeed2, lookupS])
  norm_num at h2

/-! Non-termination of aggregated backup on the cyclic-state tree. -/

theorem backupAgg_none (g : Reg → Nat → BackupResult) (nodes : NodeMap)
    (selfId : Nat) : ∀ l : List Nat, backupAgg g nodes selfId l none = none := by
  intro l
  induction l with
  | nil => rfl
  | cons m rest ih => simpa [backupAgg] using ih

theorem update_value_lookup_ne (cfg : Config) (reg : Reg) (obs : Option String)
    (v : ℚ) (k : String) (h : k ≠ strKey obs) :
    lookupS (update_value cfg reg obs v).2.2 k = lookupS reg k := by
  unfold update_value
  split
  · simp [lookupS_setS_ne _ _ _ _ h]
  · split
    · simp [lookupS_setS_ne _ _ _ _ h]
    · rfl

/-- A `backup_to_root` call on the root of the cyclic tree always returns
normally with count 1 and leaves the bounds of `S` and `T` untouched (it can
only tighten `X`, and its aggregation list holds only itself). -/
theorem cycRoot_call (f : Nat) (reg : Reg) (a b : ℚ)
    (ha : lookupS reg "S" = some a) (hb : lookupS reg "T" = some b) :
    ∃ r', backupFuel cfgHalf nodesCyc snCyc (f + 1) reg 0 =
        some (Except.ok (1, r')) ∧
      lookupS r' "S" = some a ∧ lookupS r' "T" = some b := by
  have h0 : lookupN nodesCyc 0 =
      some ⟨none, [1, 2], 0, 0, 0, false, some "X"⟩ := rfl
  have hflag : cfgHalf.backup_aggregated_nodes = true := rfl
  have hsn : lookupS snCyc "X" = some [0] := rfl
  by_cases hq : cfgHalf.gamma * a < cfgHalf.gamma * b
  · have hbc : maxByUcb cfgHalf nodesCyc reg [1, 2] = some 2 := by
      simp [maxByUcb, ucbKeys, get_value_upper_bound, lookupN, nodesCyc, strKey,
        ha, hb, firstArgmax, hq]
    have hcand : backupCandidate cfgHalf nodesCyc reg 2 =
        some (cfgHalf.gamma * b) := by
      simp [backupCandidate, lookupN, nodesCyc, strKey, hb]
    refine ⟨(update_value cfgHalf reg (some "X") (cfgHalf.gamma * b)).2.2,
      ?_, ?_, ?_⟩
    · simp [backupFuel, h0, hbc, hcand, hflag, hsn, backupAgg, strKey]
    · rw [update_value_lookup_ne _ _ _ _ _ (by simp [strKey])]
      exact ha
    · rw [update_value_lookup_ne _ _ _ _ _ (by simp [strKey])]
      exact hb
  · have hbc : maxByUcb cfgHalf nodesCyc reg [1, 2] = some 1 := by
      simp [maxByUcb, ucbKeys, get_value_upper_bound, lookupN, nodesCyc, strKey,
        ha, hb, firstArgmax, hq]
    have hcand : backupCandidate cfgHalf nodesCyc reg 1 =
        some (cfgHalf.gamma * a) := by
      simp [backupCandidate, lookupN, nodesCyc, strKey, ha]
    refine ⟨(update_value cfgHalf reg (some "X") (cfgHalf.gamma * a)).2.2,
      ?_, ?_, ?_⟩
    · simp [backupFuel, h0, hbc, hcand, hflag, hsn, backupAgg, strKey]
    · rw [update_value_lookup_ne _ _ _ _ _ (by simp [strKey])]
      exact ha
    · rw [update_value_lookup_ne _ _ _ _ _ (by simp [strKey])]
      exact hb

theorem backupFuel_succ (cfg : Config) (nodes : NodeMap) (sn : StateNodes)
    (f : Nat) (reg : Reg) (nid : Nat) :
    backupFuel cfg nodes sn (f + 1) reg nid =
      backupBody cfg nodes sn (backupFuel cfg nodes sn f) reg nid := rfl

/-- On the cyclic tree with `stopping_accuracy = 0`, a backup starting at
the node reaching `S` (respectively `T`) exhausts every amount of fuel: the
tighten of `S` from `T`'s bound enables a tighten of `T` from `S`'s new
bound through the aggregation list, and so on forever. -/
theorem cyc_backup_diverges : ∀ f : Nat,
    (∀ (reg : Reg) (a b : ℚ), lookupS reg "S" = some a →
      lookupS reg "T" = some b → 0 < a → 0 < b → b / 2 < a →
      backupFuel cfgHalf nodesCyc snCyc f reg 1 = none) ∧
    (∀ (reg : Reg) (a b : ℚ), lookupS reg "S" = some a →
      lookupS reg "T" = some b → 0 < a → 0 < b → a / 2 < b →
      backupFuel cfgHalf nodesCyc snCyc f reg 2 = none) := by
  intro f
  induction f with
  | zero => exact ⟨fun _ _ _ _ _ _ _ _ => rfl, fun _ _ _ _ _ _ _ _ => rfl⟩
  | succ f ih =>
    have hγ : cfgHalf.gamma = 1 / 2 := rfl
    have hsa : cfgHalf.stopping_accuracy = 0 := rfl
    constructor
    · intro reg a b ha hb ha0 hb0 hba
      have h1 : lookupN nodesCyc 1 =
          some ⟨some 0, [3], 0, 0, 1, false, some "S"⟩ := rfl
      have hbc : maxByUcb cfgHalf nodesCyc reg [3] = some 3 := by
        simp [maxByUcb, ucbKeys, get_value_upper_bound, lookupN, nodesCyc,
          strKey, hb, firstArgmax]
      have hcand : backupCandidate cfgHalf nodesCyc reg 3 =
          some (cfgHalf.gamma * b) := by
        simp [backupCandidate, lookupN, nodesCyc, strKey, hb]
      have hlt : cfgHalf.gamma * b < a := by rw [hγ]; linarith
      have huv : update_value cfgHalf reg (some "S") (cfgHalf.gamma * b) =
          (true, a - cfgHalf.gamma * b, setS reg "S" (cfgHalf.gamma * b)) := by
        simp [update_value, strKey, ha, hlt]
      have hδ : cfgHalf.stopping_accuracy < a - cfgHalf.gamma * b := by
        rw [hsa, hγ]; linarith
      have hS1 : lookupS (setS reg "S" (cfgHalf.gamma * b)) "S" =
          some (cfgHalf.gamma * b) := lookupS_setS_self reg "S" _
      have hT1 : lookupS (setS reg "S" (cfgHalf.gamma * b)) "T" = some b := by
        rw [lookupS_setS_ne reg "S" "T" _ (by simp)]
        exact hb
      have hsnS : lookupS snCyc "S" = some [1, 4] := rfl
      have h4 : lookupN nodesCyc 4 =
          some ⟨some 2, [], 0, 0, 2, false, some "S"⟩ := rfl
      rw [backupFuel_succ]
      cases f with
      | zero =>
        have hzero : backupFuel cfgHalf nodesCyc snCyc 0
            (setS reg "S" (cfgHalf.gamma * b)) 0 = none := rfl
        simp [backupBody, h1, hbc, hcand, huv, hδ, hsnS, hzero, backupAgg_none,
          strKey, show cfgHalf.backup_aggregated_nodes = true from rfl]
      | succ g =>
        obtain ⟨r2, hr2, hS2, hT2⟩ :=
          cycRoot_call g (setS reg "S" (cfgHalf.gamma * b))
            (cfgHalf.gamma * b) b hS1 hT1
        have hB : backupFuel cfgHalf nodesCyc snCyc (g + 1) r2 2 = none := by
          refine (ih).2 r2 (cfgHalf.gamma * b) b hS2 hT2 ?_ hb0 ?_
          · rw [hγ]; linarith
          · rw [hγ]; linarith
        simp [backupBody, h1, hbc, hcand, huv, hδ, hsnS, h4, hr2, hB,
          backupAgg, strKey, show cfgHalf.backup_aggregated_nodes = true from rfl]
    · intro reg a b ha hb ha0 hb0 hab
      have h2 : lookupN nodesCyc 2 =
          some ⟨some 0, [4], 0, 0, 1, false, some "T"⟩ := rfl
      have hbc : maxByUcb cfgHalf nodesCyc reg [4] = some 4 := by
        simp [maxByUcb, ucbKeys, get_value_upper_bound, lookupN, nodesCyc,
          strKey, ha, firstArgmax]
      have hcand : backupCandidate cfgHalf nodesCyc reg 4 =
          some (cfgHalf.gamma * a) := by
        simp [backupCandidate, lookupN, nodesCyc, strKey, ha]
      have hlt : cfgHalf.gamma * a < b := by rw [hγ]; linarith
      have huv : update_value cfgHalf reg (some "T") (cfgHalf.gamma * a) =
          (true, b - cfgHalf.gamma * a, setS reg "T" (cfgHalf.gamma * a)) := by
        simp [update_value, strKey, hb, hlt]
      have hδ : cfgHalf.stopping_accuracy < b - cfgHalf.gamma * a := by
        rw [hsa, hγ]; linarith
      have hS1 : lookupS (setS reg "T" (cfgHalf.gamma * a)) "S" = some a := by
        rw [lookupS_setS_ne reg "T" "S" _ (by simp)]
        exact ha
      have hT1 : lookupS (setS reg "T" (cfgHalf.gamma * a)) "T" =
          some (cfgHalf.gamma * a) := lookupS_setS_self reg "T" _
      have hsnT : lookupS snCyc "T" = some [2, 3] := rfl
      have h3 : lookupN nodesCyc 3 =
          some ⟨some 1, [], 0, 0, 2, false, some "T"⟩ := rfl
      rw [backupFuel_succ]
      cases f with
      | zero =>
        have hzero : backupFuel cfgHalf nodesCyc snCyc 0
            (setS reg "T" (cfgHalf.gamma * a)) 0 = none := rfl
        simp [backupBody, h2, hbc, hcand, huv, hδ, hsnT, hzero, backupAgg_none,
          strKey, show cfgHalf.backup_aggregated_nodes = true from rfl]
      | succ g =>
        obtain ⟨r2, hr2, hS2, hT2⟩ :=
          cycRoot_call g (setS reg "T" (cfgHalf.gamma * a)) a
            (cfgHalf.gamma * a) hS1 hT1
        have hA : backupFuel cfgHalf nodesCyc snCyc (g + 1) r2 1 = none := by
          refine (ih).1 r2 a (cfgHalf.gamma * a) hS2 hT2 ha0 ?_ ?_
          · rw [hγ]; linarith
          · rw [hγ]; linarith
        simp [backupBody, h2, hbc, hcand, huv, hδ, hsnT, h3, hr2, hA,
          backupAgg, strKey, show cfgHalf.backup_aggregated_nodes = true from rfl]

/-- Counterexample to C3 as stated: with `gamma = 1/2`, `stopping_accuracy
= 0` and aggregated backup enabled (all within the claim's configuration
range), `backup_to_root` on node 1 of the cyclic-state tree exhausts every
finite amount of fuel — the recursion never returns. -/
theorem c3_counterexample : ¬ BackupAlwaysTerminates := by
  intro h
  obtain ⟨f, res, hres⟩ := h cfgHalf nodesCyc snCyc regCyc 1
    (by norm_num [cfgHalf]) (by norm_num [cfgHalf]) (by norm_num [cfgHalf])
  have hnone := (cyc_backup_diverges f).1 regCyc 2 2
    (by simp [regCyc, lookupS]) (by simp [regCyc, lookupS])
    (by norm_num) (by norm_num) (by norm_num)
  rw [hnone] at hres
  cases hres

/-! Termination of backup under a positive stopping accuracy. -/

theorem lookupN_mem {α : Type} :
    ∀ (l : List (Nat × α)) (k : Nat) (v : α), lookupN l k = some v → (k, v) ∈ l := by
  intro l
  induction l with
  | nil => intro k v h; cases h
  | cons hd rest ih =>
    obtain ⟨k', w⟩ := hd
    intro k v h
    simp only [lookupN] at h
    by_cases hk : k = k'
    · rw [if_pos hk] at h
      injection h with h
      subst hk
      subst h
      exact List.mem_cons_self _ _
    · rw [if_neg hk] at h
      exact List.mem_cons_of_mem _ (ih k v h)

theorem strKey_mem_nodeKeys (nodes : NodeMap) (nid : Nat) (nd : NodeData)
    (h : lookupN nodes nid = some nd) :
    strKey nd.observation ∈ nodeKeys nodes := by
  unfold nodeKeys
  rw [List.mem_dedup]
  exact List.mem_map.2 ⟨(nid, nd), lookupN_mem nodes nid nd h, rfl⟩

theorem maxValue_pos (cfg : Config) (hγ1 : cfg.gamma < 1) : 0 < maxValue cfg := by
  unfold maxValue
  exact div_pos one_pos (by linarith)

theorem mu_nonneg (cfg : Config) (reg : Reg) (keys : List String)
    (hγ1 : cfg.gamma < 1) (hreg : RegInRange cfg reg) :
    0 ≤ muReg cfg keys reg := by
  apply List.sum_nonneg
  intro x hx
  obtain ⟨k, _, rfl⟩ := List.mem_map.1 hx
  cases h : lookupS reg k with
  | none => simpa [h] using le_of_lt (maxValue_pos cfg hγ1)
  | some v => simpa [h] using (hreg k v h).1

theorem mu_setS (cfg : Config) (reg : Reg) (k : String) (v : ℚ) :
    ∀ keys : List String, keys.Nodup → k ∈ keys →
      muReg cfg keys (setS reg k v) =
        muReg cfg keys reg - (((lookupS reg k).getD (maxValue cfg)) - v) := by
  intro keys
  induction keys with
  | nil => intro _ h; cases h
  | cons k' rest ih =>
    intro hnd hk
    rw [List.nodup_cons] at hnd
    by_cases hkk : k = k'
    · subst hkk
      have hrest : (rest.map fun x => (lookupS (setS reg k v) x).getD (maxValue cfg)) =
          rest.map fun x => (lookupS reg x).getD (maxValue cfg) := by
        apply List.map_congr_left
        intro x hx
        rw [lookupS_setS_ne reg k x v (fun hxk => hnd.1 (hxk ▸ hx))]
      simp only [muReg, List.map_cons, List.sum_cons, lookupS_setS_self] at *
      rw [hrest]
      simp only [Option.getD_some]
      ring
    · have hkrest : k ∈ rest := by
        rcases List.mem_cons.1 hk with h | h
        · exact absurd h hkk
        · exact h
      have hne : k' ≠ k := fun h => hkk h.symm
      have hmain := ih hnd.2 hkrest
      simp only [muReg, List.map_cons, List.sum_cons] at *
      rw [lookupS_setS_ne reg k k' v hne, hmain]
      ring

theorem regInRange_setS (cfg : Config) (reg : Reg) (k : String) (v : ℚ)
    (hreg : RegInRange cfg reg) (h0 : 0 ≤ v) (h1 : v ≤ maxValue cfg) :
    RegInRange cfg (setS reg k v) := by
  intro k' v' h
  by_cases hk : k' = k
  · subst hk
    rw [lookupS_setS_self] at h
    injection h with h
    exact h ▸ ⟨h0, h1⟩
  · rw [lookupS_setS_ne _ _ _ _ hk] at h
    exact hreg k' v' h

theorem update_value_regInRange (cfg : Config) (reg : Reg) (obs : Option String)
    (v : ℚ) (hreg : RegInRange cfg reg) (h0 : 0 ≤ v) (h1 : v ≤ maxValue cfg) :
    RegInRange cfg (update_value cfg reg obs v).2.2 := by
  unfold update_value
  split
  · exact regInRange_setS cfg reg _ v hreg h0 h1
  · split
    · exact regInRange_setS cfg reg _ v hreg h0 h1
    · exact hreg

theorem update_value_mu_eq (cfg : Config) (reg : Reg) (obs : Option String)
    (v : ℚ) (keys : List String) (hnd : keys.Nodup) (hk : strKey obs ∈ keys)
    (hupd : (update_value cfg reg obs v).1 = true) :
    muReg cfg keys (update_value cfg reg obs v).2.2 =
      muReg cfg keys reg - (update_value cfg reg obs v).2.1 := by
  rcases h : lookupS reg (strKey obs) with _ | cur
  · simp only [update_value, h]
    rw [mu_setS cfg reg (strKey obs) v keys hnd hk, h]
    rfl
  · by_cases hlt : v < cur
    · simp only [update_value, h, if_pos hlt]
      rw [mu_setS cfg reg (strKey obs) v keys hnd hk, h]
      rfl
    · simp only [update_value, h, if_neg hlt] at hupd
      cases hupd

theorem update_value_not_upd (cfg : Config) (reg : Reg) (obs : Option String)
    (v : ℚ) (h : (update_value cfg reg obs v).1 = false) :
    (update_value cfg reg obs v).2.2 = reg := by
  rcases hl : lookupS reg (strKey obs) with _ | cur
  · simp only [update_value, hl] at h
    cases h
  · by_cases hlt : v < cur
    · simp only [update_value, hl, if_pos hlt] at h
      cases h
    · simp only [update_value, hl, if_neg hlt]

theorem update_value_delta_nonneg (cfg : Config) (reg : Reg)
    (obs : Option String) (v : ℚ) (h1 : v ≤ maxValue cfg) :
    0 ≤ (update_value cfg reg obs v).2.1 := by
  rcases hl : lookupS reg (strKey obs) with _ | cur
  · simp only [update_value, hl]
    linarith
  · by_cases hlt : v < cur
    · simp only [update_value, hl, if_pos hlt]
      linarith
    · simp [update_value, hl, hlt]

theorem backupCandidate_range (cfg : Config) (nodes : NodeMap) (reg : Reg)
    (bc : Nat) (bk : ℚ) (hγ0 : 0 ≤ cfg.gamma) (hγ1 : cfg.gamma < 1)
    (hrew : RewardsInRange nodes) (hreg : RegInRange cfg reg)
    (h : backupCandidate cfg nodes reg bc = some bk) :
    0 ≤ bk ∧ bk ≤ maxValue cfg := by
  unfold backupCandidate at h
  split at h
  · cases h
  next bcd hbcd =>
    split at h
    · cases h
    next bv hbv =>
      injection h with h
      obtain ⟨hr0, hr1⟩ := hrew (bc, bcd) (lookupN_mem nodes bc bcd hbcd)
      obtain ⟨hv0, hv1⟩ := hreg _ bv hbv
      have hne : (1 : ℚ) - cfg.gamma ≠ 0 := by intro hc; linarith
      have hmax : (1 : ℚ) + cfg.gamma * maxValue cfg = maxValue cfg := by
        unfold maxValue
        field_simp
      constructor
      · rw [← h]
        exact add_nonneg hr0 (mul_nonneg hγ0 hv0)
      · rw [← h]
        have := mul_le_mul_of_nonneg_left hv1 hγ0
        linarith

/-- Preservation along the aggregation loop: when the fold returns normally,
the accumulator was a normal result and range plus measure carry over. -/
theorem backupAgg_pres (cfg : Config) (keys : List String)
    (g : Reg → Nat → BackupResult) (nodes : NodeMap) (selfId : Nat)
    (hg : ∀ r q c2 r2, RegInRange cfg r → g r q = some (Except.ok (c2, r2)) →
      RegInRange cfg r2 ∧ muReg cfg keys r2 ≤ muReg cfg keys r) :
    ∀ (l : List Nat) (acc : BackupResult) (c : Nat) (r' : Reg),
      backupAgg g nodes selfId l acc = some (Except.ok (c, r')) →
      ∃ c0 r0, acc = some (Except.ok (c0, r0)) ∧
        (RegInRange cfg r0 → RegInRange cfg r' ∧
          muReg cfg keys r' ≤ muReg cfg keys r0) := by
  intro l
  induction l with
  | nil =>
    intro acc c r' h
    exact ⟨c, r', h, fun hr => ⟨hr, le_refl _⟩⟩
  | cons m rest ih =>
    intro acc c r' h
    simp only [backupAgg] at h
    obtain ⟨c1, r1, hstep, hs⟩ := ih _ c r' h
    split at hstep
    next c0 r0 =>
      refine ⟨c0, r0, rfl, fun hr0 => ?_⟩
      by_cases hm : m = selfId
      · rw [if_pos hm] at hstep
        simp only [Option.some.injEq, Except.ok.injEq, Prod.mk.injEq] at hstep
        rw [← hstep.2] at hs
        exact hs hr0
      · rw [if_neg hm] at hstep
        split at hstep
        · simp at hstep
        next md hln =>
          split at hstep
          · simp only [Option.some.injEq, Except.ok.injEq, Prod.mk.injEq] at hstep
            rw [← hstep.2] at hs
            exact hs hr0
          next q hpar =>
            split at hstep
            next c2 r2 hgr =>
              simp only [Option.some.injEq, Except.ok.injEq, Prod.mk.injEq] at hstep
              obtain ⟨hr2, hm2⟩ := hg r0 q c2 r2 hr0 hgr
              rw [← hstep.2] at hs
              obtain ⟨hr', hm'⟩ := hs hr2
              exact ⟨hr', le_trans hm' hm2⟩
            next e2 hne2 =>
              exact absurd hstep (by simpa using hne2 c1 r1)
    next e hne => exact absurd hstep (by simpa using hne c1 r1)

/-- The aggregation loop returns (normally or with an error) when the
recursion at the next fuel level does on every registry within the measure
budget. -/
theorem backupAgg_isSome (cfg : Config) (keys : List String)
    (g : Reg → Nat → BackupResult) (nodes : NodeMap) (selfId : Nat) (M : ℚ)
    (hgsome : ∀ r q, RegInRange cfg r → muReg cfg keys r ≤ M → (g r q).isSome)
    (hg : ∀ r q c2 r2, RegInRange cfg r → g r q = some (Except.ok (c2, r2)) →
      RegInRange cfg r2 ∧ muReg cfg keys r2 ≤ muReg cfg keys r) :
    ∀ (l : List Nat) (acc : BackupResult), acc.isSome →
      (∀ c0 r0, acc = some (Except.ok (c0, r0)) →
        RegInRange cfg r0 ∧ muReg cfg keys r0 ≤ M) →
      (backupAgg g nodes selfId l acc).isSome := by
  intro l
  induction l with
  | nil =>
    intro acc hs _
    simpa [backupAgg] using hs
  | cons m rest ih =>
    intro acc hs hinv
    simp only [backupAgg]
    cases acc with
    | none => simp at hs
    | some e =>
      cases e with
      | error u =>
        dsimp only
        exact ih (some (Except.error u)) (by simp) (by intro c0 r0 hh; simp at hh)
      | ok pr =>
        obtain ⟨c0, r0⟩ := pr
        obtain ⟨hr0, hm0⟩ := hinv c0 r0 rfl
        dsimp only
        by_cases hm : m = selfId
        · simp only [if_pos hm]
          exact ih (some (Except.ok (c0, r0))) (by simp) hinv
        · simp only [if_neg hm]
          cases hln : lookupN nodes m with
          | none =>
            dsimp only
            exact ih (some (Except.error ())) (by simp) (by intro c1 r1 hh; simp at hh)
          | some md =>
            dsimp only
            cases hpar : md.parent with
            | none =>
              dsimp only
              exact ih (some (Except.ok (c0, r0))) (by simp) hinv
            | some q =>
              dsimp only
              have hsome := hgsome r0 q hr0 hm0
              cases hgr : g r0 q with
              | none => rw [hgr] at hsome; simp at hsome
              | some e2 =>
                cases e2 with
                | error u2 =>
                  dsimp only
                  exact ih (some (Except.error u2)) (by simp)
                    (by intro c1 r1 hh; simp at hh)
                | ok pr2 =>
                  obtain ⟨c2, r2⟩ := pr2
                  dsimp only
                  obtain ⟨hr2, hm2⟩ := hg r0 q c2 r2 hr0 hgr
                  refine ih (some (Except.ok (c0 + c2, r2))) (by simp) ?_
                  intro c1 r1 hh
                  simp only [Option.some.injEq, Except.ok.injEq,
                    Prod.mk.injEq] at hh
                  exact hh.2 ▸ ⟨hr2, le_trans hm2 hm0⟩

/-- Combined preservation and sufficiency of fuel for `backup_to_root`:
under a positive stopping accuracy, normalized rewards and in-range bounds,
a normal return keeps the bounds in range without increasing the measure,
and any fuel whose budget exceeds the measure suffices for the call to
return. -/
theorem backup_mu (cfg : Config) (nodes : NodeMap) (sn : StateNodes)
    (_hsa : 0 < cfg.stopping_accuracy) (hγ0 : 0 ≤ cfg.gamma)
    (hγ1 : cfg.gamma < 1) (hrew : RewardsInRange nodes) :
    ∀ f : Nat,
      (∀ (reg : Reg) (nid : Nat) (c : Nat) (reg' : Reg), RegInRange cfg reg →
        backupFuel cfg nodes sn f reg nid = some (Except.ok (c, reg')) →
        RegInRange cfg reg' ∧
          muReg cfg (nodeKeys nodes) reg' ≤ muReg cfg (nodeKeys nodes) reg) ∧
      (∀ (reg : Reg) (nid : Nat), RegInRange cfg reg →
        muReg cfg (nodeKeys nodes) reg < (f : ℚ) * cfg.stopping_accuracy →
        (backupFuel cfg nodes sn f reg nid).isSome) := by
  intro f
  induction f with
  | zero =>
    constructor
    · intro reg nid c reg' _ h
      cases h
    · intro reg nid hreg hμ
      exfalso
      have h0 := mu_nonneg cfg reg (nodeKeys nodes) hγ1 hreg
      push_cast at hμ
      linarith
  | succ f ih =>
    constructor
    · intro reg nid c reg' hreg h
      rw [backupFuel_succ] at h
      unfold backupBody at h
      split at h
      · simp at h
      next nd hnd =>
        split at h
        · simp only [Option.some.injEq, Except.ok.injEq, Prod.mk.injEq] at h
          exact h.2 ▸ ⟨hreg, le_refl _⟩
        · split at h
          · simp at h
          next bc hbc =>
            split at h
            · simp at h
            next bk hbk =>
              obtain ⟨hbk0, hbk1⟩ :=
                backupCandidate_range cfg nodes reg bc bk hγ0 hγ1 hrew hreg hbk
              have hreg1 : RegInRange cfg
                  (update_value cfg reg nd.observation bk).2.2 :=
                update_value_regInRange cfg reg nd.observation bk hreg hbk0 hbk1
              have hμ1 : muReg cfg (nodeKeys nodes)
                    (update_value cfg reg nd.observation bk).2.2 ≤
                  muReg cfg (nodeKeys nodes) reg := by
                by_cases hu : (update_value cfg reg nd.observation bk).1 = true
                · rw [update_value_mu_eq cfg reg nd.observation bk
                    (nodeKeys nodes) (List.nodup_dedup _)
                    (strKey_mem_nodeKeys nodes nid nd hnd) hu]
                  have := update_value_delta_nonneg cfg reg nd.observation bk hbk1
                  linarith
                · have hfalse : (update_value cfg reg nd.observation bk).1 = false := by
                    cases h' : (update_value cfg reg nd.observation bk).1
                    · rfl
                    · exact absurd h' hu
                  rw [update_value_not_upd cfg reg nd.observation bk hfalse]
              split at h
              next updated delta reg1 hcond =>
                simp only [hcond] at hreg1 hμ1
                split at h
                next hgate =>
                  cases hagg : cfg.backup_aggregated_nodes with
                  | false =>
                    rw [hagg] at h
                    simp only [Bool.false_eq_true, if_false] at h
                    split at h
                    next par hpar =>
                      split at h
                      next cc rr hbkf =>
                        simp only [Option.some.injEq, Except.ok.injEq,
                          Prod.mk.injEq] at h
                        obtain ⟨hrr, hμrr⟩ := ih.1 reg1 par cc rr hreg1 hbkf
                        refine ⟨h.2 ▸ hrr, ?_⟩
                        rw [← h.2]
                        exact le_trans hμrr hμ1
                      next e2 hne2 =>
                        exact absurd h (by simpa using hne2 c reg')
                    next hpar =>
                      simp only [Option.some.injEq, Except.ok.injEq,
                        Prod.mk.injEq] at h
                      refine ⟨h.2 ▸ hreg1, ?_⟩
                      rw [← h.2]
                      exact hμ1
                  | true =>
                    rw [hagg] at h
                    simp only [if_true] at h
                    split at h
                    · simp at h
                    next others hlo =>
                      obtain ⟨c0, r0, hap, hpres⟩ :=
                        backupAgg_pres cfg (nodeKeys nodes) _ nodes nid
                          (fun r q c2 r2 hr hh => ih.1 r q c2 r2 hr hh)
                          others _ c reg' h
                      split at hap
                      next par hpar =>
                        split at hap
                        next cc rr hbkf =>
                          simp only [Option.some.injEq, Except.ok.injEq,
                            Prod.mk.injEq] at hap
                          obtain ⟨hrr, hμrr⟩ := ih.1 reg1 par cc rr hreg1 hbkf
                          rw [← hap.2] at hpres
                          obtain ⟨hr', hμ'⟩ := hpres hrr
                          exact ⟨hr', le_trans hμ' (le_trans hμrr hμ1)⟩
                        next e2 hne2 =>
                          exact absurd hap (by simpa using hne2 c0 r0)
                      next hpar =>
                        simp only [Option.some.injEq, Except.ok.injEq,
                          Prod.mk.injEq] at hap
                        rw [← hap.2] at hpres
                        obtain ⟨hr', hμ'⟩ := hpres hreg1
                        exact ⟨hr', le_trans hμ' hμ1⟩
                next hgate =>
                  simp only [Option.some.injEq, Except.ok.injEq,
                    Prod.mk.injEq] at h
                  refine ⟨h.2 ▸ hreg1, ?_⟩
                  rw [← h.2]
                  exact hμ1
    · intro reg nid hreg hμ
      rw [backupFuel_succ]
      unfold backupBody
      split
      · simp
      next nd hnd =>
        split
        · simp
        · split
          · simp
          next bc hbc =>
            split
            · simp
            next bk hbk =>
              obtain ⟨hbk0, hbk1⟩ :=
                backupCandidate_range cfg nodes reg bc bk hγ0 hγ1 hrew hreg hbk
              have hreg1 : RegInRange cfg
                  (update_value cfg reg nd.observation bk).2.2 :=
                update_value_regInRange cfg reg nd.observation bk hreg hbk0 hbk1
              split
              next updated delta reg1 hcond =>
                simp only [hcond] at hreg1
                split
                next hgate =>
                  have hμ1 : muReg cfg (nodeKeys nodes) reg1 <
                      (f : ℚ) * cfg.stopping_accuracy := by
                    have heq := update_value_mu_eq cfg reg nd.observation bk
                      (nodeKeys nodes) (List.nodup_dedup _)
                      (strKey_mem_nodeKeys nodes nid nd hnd)
                      (by rw [hcond]; exact hgate.1)
                    rw [hcond] at heq
                    simp only at heq
                    have hδ := hgate.2
                    push_cast at hμ
                    rw [heq]
                    linarith
                  have hAPsome : (match nd.parent with
                      | some par =>
                        match backupFuel cfg nodes sn f reg1 par with
                        | some (Except.ok (c, r)) => some (Except.ok (1 + c, r))
                        | e => e
                      | none => some (Except.ok (1, reg1))).isSome := by
                    split
                    next par hpar =>
                      have hsome := ih.2 reg1 par hreg1 hμ1
                      cases hbkf : backupFuel cfg nodes sn f reg1 par with
                      | none => rw [hbkf] at hsome; simp at hsome
                      | some e3 =>
                        cases e3 with
                        | error u3 => simp
                        | ok pr3 =>
                          obtain ⟨cc, rr⟩ := pr3
                          simp
                    next hpar => simp
                  cases hagg : cfg.backup_aggregated_nodes with
                  | false =>
                    simp only [Bool.false_eq_true, if_false]
                    exact hAPsome
                  | true =>
                    simp only [eq_self_iff_true, if_true]
                    cases hlo : lookupS sn (strKey nd.observation) with
                    | none => simp
                    | some others =>
                      dsimp only
                      apply backupAgg_isSome cfg (nodeKeys nodes) _ nodes nid
                        (muReg cfg (nodeKeys nodes) reg1)
                        (fun r q hr hm => ih.2 r q hr (lt_of_le_of_lt hm hμ1))
                        (fun r q c2 r2 hr hh => ih.1 r q c2 r2 hr hh)
                        others _ hAPsome
                      intro c0 r0 hap
                      split at hap
                      next par hpar =>
                        split at hap
                        next cc rr hbkf =>
                          simp only [Option.some.injEq, Except.ok.injEq,
                            Prod.mk.injEq] at hap
                          obtain ⟨hrr, hμrr⟩ := ih.1 reg1 par cc rr hreg1 hbkf
                          exact hap.2 ▸ ⟨hrr, hμrr⟩
                        next e2 hne2 =>
                          exact absurd hap (by simpa using hne2 c0 r0)
                      next hpar =>
                        simp only [Option.some.injEq, Except.ok.injEq,
                          Prod.mk.injEq] at hap
                        exact hap.2 ▸ ⟨hreg1, le_refl _⟩
                next hgate => simp

/-- C3, amended.  With a strictly positive `stopping_accuracy`, rewards
normalized to `[0, 1]`, a discount factor in `[0, 1)` and all registered
bounds within `[0, 1/(1-gamma)]`, `backup_to_root` terminates on every
finite tree: some finite fuel makes the fueled recursion return (normally
or with an exception). -/
theorem c3_backup_terminates (cfg : Config) (nodes : NodeMap)
    (sn : StateNodes) (reg : Reg) (nid : Nat)
    (hsa : 0 < cfg.stopping_accuracy) (hγ0 : 0 ≤ cfg.gamma)
    (hγ1 : cfg.gamma < 1) (hrew : RewardsInRange nodes)
    (hreg : RegInRange cfg reg) :
    ∃ (fuel : Nat) (res : Except Unit (Nat × Reg)),
      backupFuel cfg nodes sn fuel reg nid = some res := by
  obtain ⟨f, hf⟩ := exists_nat_gt
    (muReg cfg (nodeKeys nodes) reg / cfg.stopping_accuracy)
  have hμ : muReg cfg (nodeKeys nodes) reg <
      (f : ℚ) * cfg.stopping_accuracy := by
    rw [div_lt_iff₀ hsa] at hf
    linarith
  have hs := (backup_mu cfg nodes sn hsa hγ0 hγ1 hrew f).2 reg nid hreg hμ
  obtain ⟨res, hres⟩ := Option.isSome_iff_exists.1 hs
  exact ⟨f, res, hres⟩

/-- Witness for C3 (amended) at a configuration with `stopping_accuracy
= 1`: backing up the single-node tree terminates. -/
theorem c3_backup_terminates_witness :
    ∃ (fuel : Nat) (res : Except Unit (Nat × Reg)),
      backupFuel cfgSa nodesOne [] fuel [] 0 = some res := by
  apply c3_backup_terminates cfgSa nodesOne [] [] 0
  · norm_num [cfgSa]
  · norm_num [cfgSa]
  · norm_num [cfgSa]
  · intro pr hpr
    rcases List.mem_singleton.1 hpr with rfl
    constructor <;> norm_num
  · intro k v h
    cases h

end StateAware